import Mathlib

/-!
# Akumuli storage core: shallow embedding and verification

This file embeds the storage core of the Akumuli time-series engine in
Lean 4 and proves (or refutes) the claims of the natural-language
specification against it.  The embedding is translated from the C++
sources:

* `sequencer.cpp` — `Sequencer` (lateness window, checkpoints, k-way
  merge, `merge_and_compress`, `get_window`),
* `page.cpp` — `PageHeader` (`add_entry`, `add_chunk`, `complete_chunk`,
  `sync_next_index`, `reuse`),
* `compression.h` — the chunk codec stream writers/readers
  (Base128 varint, RLE, ZigZag, Delta),
* `buffer_cache.cpp` — `ChunkCache` (FIFO-evicted byte-bounded cache),
* `storage.cpp` — `Storage::_write_impl` (durability / flush policy).

Machine integers are modelled as `Nat` bit patterns with explicit
wrap-around (`% 2^64`, `% 2^32`) where the C++ arithmetic wraps.
Calls that panic (`AKU_PANIC`) or never terminate are modelled as
`Option`-valued functions returning `none`.
-/

namespace Akumuli

/-- Error codes (the stable `aku_Status` enum of `akumuli_def.h`,
as listed in spec §6). -/
inductive aku_Status where
  | SUCCESS
  | ENO_DATA
  | ENO_MEM
  | EBUSY
  | ENOT_FOUND
  | EBAD_ARG
  | EOVERFLOW
  | EBAD_DATA
  | EGENERAL
  | ELATE_WRITE
  | ENOT_IMPLEMENTED
  | EQUERY_PARSING_ERROR
  | EMERGE_REQUIRED
  deriving DecidableEq, Repr

/-- `2^64`: modulus of `uint64_t` / `int64_t` bit patterns. -/
def U64 : Nat := 2 ^ 64

/-- `2^32`: modulus of `uint32_t` bit patterns. -/
def U32 : Nat := 2 ^ 32

/-- Wrapping 64-bit addition on bit patterns. -/
def add64 (a b : Nat) : Nat := (a + b) % U64

/-- Wrapping 64-bit subtraction on bit patterns. -/
def sub64 (a b : Nat) : Nat := (a + (U64 - b % U64)) % U64

/-- Wrapping 32-bit subtraction on bit patterns. -/
def sub32 (a b : Nat) : Nat := (a + (U32 - b % U32)) % U32

/-- `TimeSeriesValue` from `sequencer.h`: key timestamp, key series id and
a `double` payload.  The payload is never inspected by the control logic
(only `(key_ts_, key_id_)` take part in every comparison), so it is
modelled as an opaque `Int`. -/
structure TimeSeriesValue where
  key_ts : Nat
  key_id : Nat
  value : Int
  deriving DecidableEq, Repr

/-- `operator< (TimeSeriesValue, TimeSeriesValue)`: lexicographic
comparison of `(key_ts_, key_id_)` tuples (time order). -/
def tsv_lt (a b : TimeSeriesValue) : Bool :=
  a.key_ts < b.key_ts || (a.key_ts == b.key_ts && a.key_id < b.key_id)

/-- Non-strict time order `¬(b < a)`, the order in which sorted runs are
non-decreasing. -/
def tsv_le (a b : TimeSeriesValue) : Bool := !(tsv_lt b a)

/-- `chunk_order_LT`: lexicographic comparison of `(key_id_, key_ts_)`. -/
def chunk_order_LT (a b : TimeSeriesValue) : Bool :=
  a.key_id < b.key_id || (a.key_id == b.key_id && a.key_ts < b.key_ts)

/-- Boolean check that adjacent elements of a run satisfy `tsv_le`. -/
def sortedRunChk : List TimeSeriesValue → Bool
  | [] => true
  | [_] => true
  | a :: b :: t => tsv_le a b && sortedRunChk (b :: t)

/-- A run is internally monotonic non-decreasing in time order (spec S3). -/
def SortedRunOk (r : List TimeSeriesValue) : Prop :=
  sortedRunChk r = true

instance (r : List TimeSeriesValue) : Decidable (SortedRunOk r) :=
  inferInstanceAs (Decidable (sortedRunChk r = true))

theorem SortedRunOk_iff (r : List TimeSeriesValue) :
    SortedRunOk r ↔ List.Chain' (fun a b => tsv_le a b = true) r := by
  induction r with
  | nil => simp [SortedRunOk, sortedRunChk]
  | cons a t ih =>
    cases t with
    | nil => simp [SortedRunOk, sortedRunChk]
    | cons b t2 =>
      rw [List.chain'_cons, ← ih]
      simp [SortedRunOk, sortedRunChk, Bool.and_eq_true]

/-- `AKU_LIMITS_MAX_ID`.  Modelled from the spec: the (missing)
`akumuli_def.h` defines the largest usable series id; `Sequencer::filter`
uses `~0ull` for the same purpose, and `make_checkpoint_` partitions runs
at the key `(old_top, AKU_LIMITS_MAX_ID)`. -/
def AKU_LIMITS_MAX_ID : Nat := U64 - 1

/-! ## Sequencer state

`Sequencer` from `sequencer.h`/`sequencer.cpp`.  Locks and the helper
`key_` run are concurrency/allocation devices with no functional content
and are not part of the state. -/

structure Sequencer where
  /-- `window_size_` (the lateness window W). -/
  window_size : Nat
  /-- `top_timestamp_`: maximum timestamp observed. -/
  top_timestamp : Nat
  /-- `checkpoint_`: current checkpoint id. -/
  checkpoint : Nat
  /-- `sequence_number_` (the generation: even ⇒ writers own the state). -/
  sequence_number : Nat
  /-- `runs_`: active sorted runs. -/
  runs : List (List TimeSeriesValue)
  /-- `ready_`: sorted runs awaiting flush. -/
  ready : List (List TimeSeriesValue)
  /-- `c_threshold_` (compression threshold C). -/
  c_threshold : Nat
  deriving DecidableEq, Repr

/-- Multiset of all samples held in the active runs of a sequencer. -/
def runsMultiset (s : Sequencer) : Multiset TimeSeriesValue :=
  (s.runs.flatten : List TimeSeriesValue)

/-- Multiset of all samples held in the ready runs of a sequencer. -/
def readyMultiset (s : Sequencer) : Multiset TimeSeriesValue :=
  (s.ready.flatten : List TimeSeriesValue)

/-- `Sequencer::get_checkpoint_`: checkpoint id = ⌊timestamp/window_size⌋. -/
def Sequencer.get_checkpoint_ (s : Sequencer) (ts : Nat) : Nat :=
  ts / s.window_size

/-- `Sequencer::get_timestamp_`: convert checkpoint id to timestamp. -/
def Sequencer.get_timestamp_ (s : Sequencer) (cp : Nat) : Nat :=
  cp * s.window_size

/-- `Sequencer::get_window()`:
`(top_timestamp_ > window_size_ ? top_timestamp_ - window_size_ : top_timestamp_, sequence_number_)`. -/
def Sequencer.get_window (s : Sequencer) : Nat × Nat :=
  (if s.top_timestamp > s.window_size then s.top_timestamp - s.window_size
   else s.top_timestamp,
   s.sequence_number)

/-- The window the spec's words prescribe for `get_window`:
`top_timestamp − W` (u64 subtraction), unconditionally. -/
def get_window_spec (s : Sequencer) : Nat × Nat :=
  (sub64 s.top_timestamp s.window_size, s.sequence_number)

/-- Replace the element at index `ix` of `l` by `f` applied to it
(out-of-range indices leave the list unchanged). -/
def listUpdate {α : Type} (l : List α) (ix : Nat) (f : α → α) : List α :=
  match l, ix with
  | [], _ => []
  | x :: xs, 0 => f x :: xs
  | x :: xs, n + 1 => x :: listUpdate xs n f

/-- The partition key `TimeSeriesValue(old_top, AKU_LIMITS_MAX_ID, 0)`
used by `make_checkpoint_`, where `old_top = get_timestamp_(checkpoint_)`. -/
def checkpoint_key (s : Sequencer) : TimeSeriesValue :=
  ⟨s.get_timestamp_ s.checkpoint, AKU_LIMITS_MAX_ID, 0⟩

/-- One iteration of the run loop of `Sequencer::make_checkpoint_`.
`lower_bound(run.begin(), run.end(), key)` on a sorted run splits it at
the first element that is not `< key`, i.e. into
`takeWhile (· < key)` and `dropWhile (· < key)`:
* all elements newer than `old_top` (`it == begin`) — the run stays;
* all elements older (`it == end`) — the whole run moves to `ready_`;
* otherwise the old half moves to `ready_` and the new half stays. -/
def cpStep (key : TimeSeriesValue)
    (acc : List (List TimeSeriesValue) × List (List TimeSeriesValue))
    (sorted_run : List TimeSeriesValue) :
    List (List TimeSeriesValue) × List (List TimeSeriesValue) :=
  match sorted_run.takeWhile (fun e => tsv_lt e key),
        sorted_run.dropWhile (fun e => tsv_lt e key) with
  | [], _ => (acc.1 ++ [sorted_run], acc.2)
  | _ :: _, [] => (acc.1, acc.2 ++ [sorted_run])
  | a :: as, b :: bs => (acc.1 ++ [b :: bs], acc.2 ++ [a :: as])

/-- The runs that remain active after the partition of `make_checkpoint_`
(the accumulated first components of `cpStep`). -/
def cpStayed (key : TimeSeriesValue) (runs : List (List TimeSeriesValue)) :
    List (List TimeSeriesValue) :=
  runs.filterMap (fun run =>
    match run.takeWhile (fun e => tsv_lt e key),
          run.dropWhile (fun e => tsv_lt e key) with
    | [], _ => some run
    | _ :: _, [] => none
    | _ :: _, b :: bs => some (b :: bs))

/-- The runs moved to `ready_` by the partition of `make_checkpoint_`
(the accumulated second components of `cpStep`). -/
def cpMoved (key : TimeSeriesValue) (runs : List (List TimeSeriesValue)) :
    List (List TimeSeriesValue) :=
  runs.filterMap (fun run =>
    match run.takeWhile (fun e => tsv_lt e key),
          run.dropWhile (fun e => tsv_lt e key) with
    | [], _ => none
    | _ :: _, [] => some run
    | a :: as, _ :: _ => some (a :: as))

/-- Number of runs that straddle the checkpoint boundary (are split in
two by `make_checkpoint_`). -/
def splitCountOf (key : TimeSeriesValue) (runs : List (List TimeSeriesValue)) : Nat :=
  (runs.map (fun run =>
    match run.takeWhile (fun e => tsv_lt e key),
          run.dropWhile (fun e => tsv_lt e key) with
    | [], _ => 0
    | _ :: _, [] => 0
    | _ :: _, _ :: _ => 1)).sum

/-- Number of active runs of `s` split by the checkpoint partition. -/
def splitCount (s : Sequencer) : Nat := splitCountOf (checkpoint_key s) s.runs

/-- `Sequencer::make_checkpoint_` from `sequencer.cpp`.
Bumps `sequence_number_` (even→odd; a re-entrant call — odd on entry —
panics, modelled as `none`), partitions every active run at
`old_top = checkpoint_ · W`, replaces `checkpoint_` by the new id, and,
if the total `ready_` size is below `c_threshold_`, reverts the split by
appending all ready runs back to `runs_` and bumping the generation again
(odd→even).  Returns the updated state and the returned `flag`. -/
def Sequencer.make_checkpoint_ (s : Sequencer) (new_checkpoint : Nat) :
    Option (Sequencer × Nat) :=
  let flag := s.sequence_number + 1
  if flag % 2 = 0 then none
  else
    let key := checkpoint_key s
    let parts := s.runs.foldl (cpStep key) ([], [])
    let ready1 := s.ready ++ parts.2
    let ready_size := (ready1.map List.length).sum
    if ready_size < s.c_threshold then
      some ({ s with
                checkpoint := new_checkpoint,
                sequence_number := flag + 1,
                runs := parts.1 ++ ready1,
                ready := [] }, flag + 1)
    else
      some ({ s with
                checkpoint := new_checkpoint,
                sequence_number := flag,
                runs := parts.1,
                ready := ready1 }, flag)

/-- `Sequencer::check_timestamp_`: validate `ts` against the lateness
window and create a checkpoint when `⌊ts/W⌋` has advanced.  Returns
`(status, flag, new state)`. -/
def Sequencer.check_timestamp_ (s : Sequencer) (ts : Nat) :
    Option (aku_Status × Nat × Sequencer) :=
  if ts < s.top_timestamp then
    let delta := s.top_timestamp - ts
    some ((if s.window_size < delta then aku_Status.ELATE_WRITE else aku_Status.SUCCESS), 0, s)
  else
    let point := s.get_checkpoint_ ts
    if s.checkpoint < point then
      match s.make_checkpoint_ point with
      | none => none
      | some (s1, flag) => some (aku_Status.SUCCESS, flag, { s1 with top_timestamp := ts })
    else
      some (aku_Status.SUCCESS, 0, { s with top_timestamp := ts })

/-- `Sequencer::add` from `sequencer.cpp`.  After `check_timestamp_`
succeeds, `lower_bound(runs_.begin(), runs_.end(), key_,
top_element_more)` locates the first run whose `back()` is `≤ v` in time
order (modelled by a linear scan, which agrees with the binary search on
arrays sorted for the comparator; `back()` of an empty run is undefined
in C++ and treated as a stopping point); `v` is appended to that run, or
pushed as a fresh single-element run when no such run exists. -/
def findInsertIdx (v : TimeSeriesValue) : List (List TimeSeriesValue) → Option Nat
  | [] => none
  | run :: rest =>
    let stop : Bool :=
      match run.getLast? with
      | some b => !(tsv_lt v b)
      | none => true
    if stop then some 0 else (findInsertIdx v rest).map (· + 1)

def Sequencer.add (s : Sequencer) (v : TimeSeriesValue) :
    Option (aku_Status × Nat × Sequencer) :=
  match s.check_timestamp_ v.key_ts with
  | none => none
  | some (status, lock, s1) =>
    if status = aku_Status.SUCCESS then
      match findInsertIdx v s1.runs with
      | some run_ix =>
          some (aku_Status.SUCCESS, lock,
                { s1 with runs := listUpdate s1.runs run_ix (fun r => r ++ [v]) })
      | none =>
          some (aku_Status.SUCCESS, lock, { s1 with runs := s1.runs ++ [[v]] })
    else
      some (status, lock, s1)

/-! ## ChunkCache (`buffer_cache.cpp`) -/

/-- `UncompressedChunk` from `compression.h`: three parallel columns. -/
structure UncompressedChunk where
  timestamps : List Nat
  paramids : List Nat
  values : List Int
  deriving DecidableEq, Repr

/-- `get_size` from `buffer_cache.cpp`: byte size of a decoded chunk
(`sizeof(aku_ParamId) = sizeof(aku_Timestamp) = sizeof(double) = 8`). -/
def get_size (h : UncompressedChunk) : Nat :=
  h.paramids.length * 8 + h.timestamps.length * 8 + h.values.length * 8

/-- Cache key: the C++ `KeyT` is an opaque (page, offset) key; modelled as
a pair of naturals. -/
abbrev KeyT := Nat × Nat

/-- `ChunkCache` state: the FIFO (`front` = newest insertion, `back` =
oldest), the key→chunk map (association list, newest binding first) and
the byte accounting. -/
structure ChunkCache where
  fifo : List (KeyT × Nat)
  cache : List (KeyT × UncompressedChunk)
  total_size : Nat
  size_limit : Nat

/-- `ChunkCache::contains`. -/
def ChunkCache.contains (c : ChunkCache) (key : KeyT) : Bool :=
  c.cache.any (fun kv => kv.1 == key)

/-- `ChunkCache::get`: the map lookup (`ItemT()`, an empty shared pointer,
becomes `none`). -/
def ChunkCache.get (c : ChunkCache) (key : KeyT) : Option UncompressedChunk :=
  (c.cache.find? (fun kv => kv.1 == key)).map (·.2)

/-- `ChunkCache::put` from `buffer_cache.cpp`.  If the new chunk would
push `total_size_` over `size_limit_` and the FIFO is non-empty, the
single oldest FIFO entry is popped and erased from the map (note: one
`if`, not a loop); then the new chunk is inserted unconditionally. -/
def ChunkCache.put (c : ChunkCache) (key : KeyT) (header : UncompressedChunk) : ChunkCache :=
  let szdelta := get_size header
  let c1 :=
    if c.total_size + szdelta > c.size_limit then
      match c.fifo.getLast? with
      | some (ekey, esz) =>
          { c with fifo := c.fifo.dropLast,
                   cache := c.cache.eraseP (fun kv => kv.1 == ekey),
                   total_size := c.total_size - esz }
      | none => c
    else c
  { c1 with fifo := (key, szdelta) :: c1.fifo,
            cache := (key, header) :: c1.cache.eraseP (fun kv => kv.1 == key),
            total_size := c1.total_size + szdelta }

/-! ## C8: `get_window` -/

/-- A sequencer whose `top_timestamp` has not yet passed the window size. -/
def c8_state : Sequencer :=
  { window_size := 10, top_timestamp := 5, checkpoint := 0, sequence_number := 0,
    runs := [], ready := [], c_threshold := 1000 }

/-- C8 counterexample: with `top_timestamp = 5` and `W = 10`, `get_window`
returns `5`, not `top_timestamp − W` — neither under wrapping u64
subtraction (`2^64 − 5`) nor under truncated subtraction (`0`). -/
theorem C8_get_window_cex :
    c8_state.get_window.1 = 5 ∧
    sub64 c8_state.top_timestamp c8_state.window_size ≠ 5 ∧
    c8_state.top_timestamp - c8_state.window_size ≠ 5 := by
  decide

/-- C8 (amended): `get_window` returns `(top_timestamp − W, generation)`
whenever `top_timestamp > W`; otherwise it returns `top_timestamp` itself
as the window bound, together with the generation. -/
theorem C8_get_window_amended (s : Sequencer) :
    (s.window_size < s.top_timestamp →
       s.get_window = (s.top_timestamp - s.window_size, s.sequence_number)) ∧
    (s.top_timestamp ≤ s.window_size →
       s.get_window = (s.top_timestamp, s.sequence_number)) := by
  constructor <;> intro h <;> simp [Sequencer.get_window, h]

/-- A sequencer with `top_timestamp > W`, exercising the main branch. -/
def c8w_state : Sequencer :=
  { window_size := 3, top_timestamp := 10, checkpoint := 0, sequence_number := 7,
    runs := [], ready := [], c_threshold := 1000 }

/-- Witness for C8: at `top_timestamp = 10`, `W = 3` the window pair is
`(7, 7)`. -/
theorem C8_get_window_witness :
    3 < 10 ∧ c8w_state.get_window = (7, 7) :=
  ⟨by decide, (C8_get_window_amended c8w_state).1 (by decide)⟩

/-! ## C3: `ChunkCache::put` -/

/-- Chunk of byte size 8 (one timestamp). -/
def chunkA : UncompressedChunk := { timestamps := [1], paramids := [], values := [] }

/-- Chunk of byte size 16 (two timestamps). -/
def chunkB : UncompressedChunk := { timestamps := [1, 2], paramids := [], values := [] }

/-- Empty cache with a 20-byte budget. -/
def c3_cache0 : ChunkCache := { fifo := [], cache := [], total_size := 0, size_limit := 20 }

/-- The cache after putting two 8-byte chunks and one 16-byte chunk. -/
def c3_cache3 : ChunkCache :=
  ((c3_cache0.put (1, 1) chunkA).put (2, 2) chunkA).put (3, 3) chunkB

/-- C3 counterexample: with a 20-byte limit, after putting chunks of
8, 8 and 16 bytes the total is 24 > 20 although the FIFO still holds two
entries — `put` evicted only one chunk (a single `if`, not a loop), so
the byte bound fails and eviction does not repeat until the chunk fits. -/
theorem C3_put_cex :
    c3_cache3.total_size = 24 ∧ c3_cache3.size_limit = 20 ∧
    c3_cache3.fifo = [((3, 3), 16), ((2, 2), 8)] := by
  decide

/-- C3 (amended): `put` evicts at most one chunk — the oldest-inserted
one — and does so exactly when the incoming chunk would push the total
over the limit and the FIFO is non-empty; the resulting total is
`old − evicted + new` (respectively `old + new` with no eviction), which
may exceed the configured limit. -/
theorem C3_put_single_eviction (c : ChunkCache) (key : KeyT) (h : UncompressedChunk) :
    (c.total_size + get_size h ≤ c.size_limit →
       (c.put key h).fifo = (key, get_size h) :: c.fifo ∧
       (c.put key h).total_size = c.total_size + get_size h) ∧
    (c.size_limit < c.total_size + get_size h → c.fifo = [] →
       (c.put key h).fifo = [(key, get_size h)] ∧
       (c.put key h).total_size = c.total_size + get_size h) ∧
    (∀ ekey esz, c.size_limit < c.total_size + get_size h →
       c.fifo.getLast? = some (ekey, esz) →
       (c.put key h).fifo = (key, get_size h) :: c.fifo.dropLast ∧
       (c.put key h).total_size = c.total_size - esz + get_size h) := by
  refine ⟨?_, ?_, ?_⟩
  · intro hle
    simp only [ChunkCache.put]
    rw [if_neg (by omega)]
    exact ⟨rfl, rfl⟩
  · intro hgt hfifo
    simp only [ChunkCache.put]
    rw [if_pos (by omega)]
    simp [hfifo]
  · intro ekey esz hgt hlast
    simp only [ChunkCache.put]
    rw [if_pos (by omega), hlast]
    exact ⟨rfl, rfl⟩

/-! ## C1: `Sequencer::add` and the lateness window -/

theorem findInsertIdx_lt_length (v : TimeSeriesValue) :
    ∀ {l : List (List TimeSeriesValue)} {ix : Nat},
      findInsertIdx v l = some ix → ix < l.length := by
  intro l
  induction l with
  | nil => intro ix h; simp [findInsertIdx] at h
  | cons x xs ih =>
    intro ix h
    rw [findInsertIdx] at h
    split at h
    · cases h; simp
    · cases hx : findInsertIdx v xs with
      | none => rw [hx] at h; simp at h
      | some j =>
        rw [hx] at h
        simp only [Option.map_some', Option.some.injEq] at h
        have := ih hx
        simp only [List.length_cons]
        omega

theorem flatten_update_perm {α : Type} (v : α) :
    ∀ (l : List (List α)) (ix : Nat), ix < l.length →
      List.Perm (listUpdate l ix (fun r => r ++ [v])).flatten (v :: l.flatten) := by
  intro l
  induction l with
  | nil => intro ix h; simp at h
  | cons r rs ih =>
    intro ix h
    cases ix with
    | zero =>
      simp only [listUpdate, List.flatten_cons]
      have he : (r ++ [v]) ++ rs.flatten = r ++ v :: rs.flatten := by simp
      rw [he]
      exact List.perm_middle
    | succ n =>
      simp only [listUpdate, List.flatten_cons]
      have h1 : n < rs.length := by
        simp only [List.length_cons] at h; omega
      exact ((ih n h1).append_left r).trans List.perm_middle

/-- C1: a write whose timestamp sits exactly on the window boundary
(`top_timestamp − ts = W`) is accepted by `Sequencer::add` — it returns
`SUCCESS` and the sample is stored in the active runs — while a write one
tick older (`top_timestamp − ts > W`) is rejected with `LATE_WRITE`,
leaving the whole sequencer state (in particular the runs) unchanged. -/
theorem C1_add_window_boundary (s : Sequencer) (v : TimeSeriesValue) :
    (0 < s.window_size → v.key_ts + s.window_size = s.top_timestamp →
       ∃ s1, s.add v = some (aku_Status.SUCCESS, 0, s1) ∧
         runsMultiset s1 = v ::ₘ runsMultiset s ∧ s1.ready = s.ready) ∧
    (v.key_ts + s.window_size < s.top_timestamp →
       s.add v = some (aku_Status.ELATE_WRITE, 0, s)) := by
  constructor
  · intro hW htop
    have hlt : v.key_ts < s.top_timestamp := by omega
    have hdelta : ¬ s.window_size < s.top_timestamp - v.key_ts := by omega
    simp only [Sequencer.add, Sequencer.check_timestamp_, if_pos hlt, if_neg hdelta,
               if_pos rfl]
    cases hidx : findInsertIdx v s.runs with
    | some run_ix =>
      refine ⟨_, rfl, ?_, rfl⟩
      have hlen := findInsertIdx_lt_length v hidx
      simp only [runsMultiset]
      rw [Multiset.cons_coe]
      exact Multiset.coe_eq_coe.2 (flatten_update_perm v s.runs run_ix hlen)
    | none =>
      refine ⟨_, rfl, ?_, rfl⟩
      simp only [runsMultiset]
      rw [Multiset.cons_coe]
      apply Multiset.coe_eq_coe.2
      have he : (s.runs ++ [[v]]).flatten = s.runs.flatten ++ v :: [] := by simp
      rw [he]
      exact List.perm_middle.trans (by simp)
  · intro hlate
    have hlt : v.key_ts < s.top_timestamp := by omega
    have hdelta : s.window_size < s.top_timestamp - v.key_ts := by omega
    simp [Sequencer.add, Sequencer.check_timestamp_, if_pos hlt, if_pos hdelta]

/-- Sequencer used by the C1 witness: one run, `top = 10`, `W = 3`. -/
def c1_state : Sequencer :=
  { window_size := 3, top_timestamp := 10, checkpoint := 0, sequence_number := 0,
    runs := [[⟨8, 1, 0⟩]], ready := [], c_threshold := 1000 }

/-- Witness for C1: at `W = 3`, `top = 10`, the boundary sample
`ts = 7` is accepted and stored while `ts = 6` is rejected late. -/
theorem C1_add_window_boundary_witness :
    (∃ s1, c1_state.add ⟨7, 2, 0⟩ = some (aku_Status.SUCCESS, 0, s1) ∧
       runsMultiset s1 = (⟨7, 2, 0⟩ : TimeSeriesValue) ::ₘ runsMultiset c1_state ∧
       s1.ready = c1_state.ready) ∧
    c1_state.add ⟨6, 2, 0⟩ = some (aku_Status.ELATE_WRITE, 0, c1_state) :=
  ⟨(C1_add_window_boundary c1_state ⟨7, 2, 0⟩).1 (by decide) (by decide),
   (C1_add_window_boundary c1_state ⟨6, 2, 0⟩).2 (by decide)⟩

/-! ## C4: `make_checkpoint_` with a small ready set -/

theorem cpFold (key : TimeSeriesValue) :
    ∀ (runs : List (List TimeSeriesValue))
      (acc : List (List TimeSeriesValue) × List (List TimeSeriesValue)),
      runs.foldl (cpStep key) acc = (acc.1 ++ cpStayed key runs, acc.2 ++ cpMoved key runs) := by
  intro runs
  induction runs with
  | nil => intro acc; simp [cpStayed, cpMoved]
  | cons r rs ih =>
    intro acc
    rw [List.foldl_cons, ih]
    cases hT : r.takeWhile (fun e => tsv_lt e key) with
    | nil =>
      simp only [cpStep, cpStayed, cpMoved, List.filterMap_cons, hT]
      simp [List.append_assoc]
    | cons a as =>
      cases hD : r.dropWhile (fun e => tsv_lt e key) with
      | nil =>
        simp only [cpStep, cpStayed, cpMoved, List.filterMap_cons, hT, hD]
        simp [List.append_assoc]
      | cons b bs =>
        simp only [cpStep, cpStayed, cpMoved, List.filterMap_cons, hT, hD]
        simp [List.append_assoc]

theorem cpCount (key : TimeSeriesValue) :
    ∀ runs, (cpStayed key runs).length + (cpMoved key runs).length
      = runs.length + splitCountOf key runs := by
  intro runs
  induction runs with
  | nil => simp [cpStayed, cpMoved, splitCountOf]
  | cons r rs ih =>
    cases hT : r.takeWhile (fun e => tsv_lt e key) with
    | nil =>
      simp only [cpStayed, cpMoved, splitCountOf, List.filterMap_cons, List.map_cons,
                 List.sum_cons, hT] at ih ⊢
      simp only [List.length_cons]
      omega
    | cons a as =>
      cases hD : r.dropWhile (fun e => tsv_lt e key) with
      | nil =>
        simp only [cpStayed, cpMoved, splitCountOf, List.filterMap_cons, List.map_cons,
                   List.sum_cons, hT, hD] at ih ⊢
        simp only [List.length_cons]
        omega
      | cons b bs =>
        simp only [cpStayed, cpMoved, splitCountOf, List.filterMap_cons, List.map_cons,
                   List.sum_cons, hT, hD] at ih ⊢
        simp only [List.length_cons]
        omega

theorem cpMass (key : TimeSeriesValue) :
    ∀ runs, (((cpStayed key runs).flatten : List TimeSeriesValue) : Multiset TimeSeriesValue)
        + ((cpMoved key runs).flatten : List TimeSeriesValue)
      = ((runs.flatten : List TimeSeriesValue) : Multiset TimeSeriesValue) := by
  intro runs
  induction runs with
  | nil => simp [cpStayed, cpMoved]
  | cons r rs ih =>
    have hsplit : r.takeWhile (fun e => tsv_lt e key) ++ r.dropWhile (fun e => tsv_lt e key) = r :=
      List.takeWhile_append_dropWhile _ _
    cases hT : r.takeWhile (fun e => tsv_lt e key) with
    | nil =>
      simp only [cpStayed, cpMoved, List.filterMap_cons, hT] at ih ⊢
      simp only [List.flatten_cons, ← Multiset.coe_add, ← ih]
      abel
    | cons a as =>
      cases hD : r.dropWhile (fun e => tsv_lt e key) with
      | nil =>
        simp only [cpStayed, cpMoved, List.filterMap_cons, hT, hD] at ih ⊢
        simp only [List.flatten_cons, ← Multiset.coe_add, ← ih]
        abel
      | cons b bs =>
        rw [hT, hD] at hsplit
        have hr : ((r : List TimeSeriesValue) : Multiset TimeSeriesValue)
            = ((a :: as : List TimeSeriesValue) : Multiset TimeSeriesValue)
              + ((b :: bs : List TimeSeriesValue) : Multiset TimeSeriesValue) := by
          rw [Multiset.coe_add]
          exact congrArg _ hsplit.symm
        simp only [cpStayed, cpMoved, List.filterMap_cons, hT, hD] at ih ⊢
        simp only [List.flatten_cons, ← Multiset.coe_add, ← ih, hr]
        abel

/-- C4 counterexample state: one active run `[(ts 5), (ts 15)]` straddling
the previous checkpoint boundary `old_top = 1·10 = 10`, even generation,
large threshold `C = 1000`. -/
def c4_state : Sequencer :=
  { window_size := 10, top_timestamp := 15, checkpoint := 1, sequence_number := 2,
    runs := [[⟨5, 1, 0⟩, ⟨15, 1, 0⟩]], ready := [], c_threshold := 1000 }

/-- C4 counterexample: `make_checkpoint_` on `c4_state` moves one sample
(`< C = 1000`) to ready and reverts, but the split run comes back as two
runs: `runs` has 2 runs afterwards where it had 1 before (the generation
is even again, as claimed). -/
theorem C4_make_checkpoint_cex :
    (c4_state.make_checkpoint_ 2).map (fun p => p.1.runs.length) = some 2 ∧
    c4_state.runs.length = 1 ∧
    (c4_state.make_checkpoint_ 2).map (fun p => p.1.sequence_number % 2) = some 0 ∧
    (c4_state.make_checkpoint_ 2).map (fun p => p.1.ready) = some [] := by
  decide

/-- C4 (amended): called at an even generation with an empty ready set,
when the total number of samples moved to ready is below the compression
threshold `C`, `make_checkpoint_` reverts the split: the generation is
even again, `ready` is empty, and the multiset of samples in `runs` is
unchanged — but the run count grows by the number of runs that were split
at the old checkpoint boundary (it is unchanged only when no run
straddles the boundary). -/
theorem C4_make_checkpoint_amended (s : Sequencer) (ncp : Nat)
    (heven : s.sequence_number % 2 = 0) (hready : s.ready = [])
    (hsize : ((cpMoved (checkpoint_key s) s.runs).map List.length).sum < s.c_threshold) :
    ∃ s1, s.make_checkpoint_ ncp = some (s1, s.sequence_number + 2) ∧
      s1.sequence_number = s.sequence_number + 2 ∧
      s1.sequence_number % 2 = 0 ∧
      s1.ready = [] ∧
      s1.runs.length = s.runs.length + splitCount s ∧
      runsMultiset s1 = runsMultiset s := by
  have hodd : ¬ (s.sequence_number + 1) % 2 = 0 := by omega
  have heq : s.make_checkpoint_ ncp =
      some ({ s with
                checkpoint := ncp,
                sequence_number := s.sequence_number + 1 + 1,
                runs := cpStayed (checkpoint_key s) s.runs ++ cpMoved (checkpoint_key s) s.runs,
                ready := [] }, s.sequence_number + 1 + 1) := by
    simp only [Sequencer.make_checkpoint_, if_neg hodd, cpFold, hready, List.nil_append,
               List.append_nil]
    rw [if_pos (by simpa using hsize)]
  refine ⟨_, heq, ?_, ?_, rfl, ?_, ?_⟩
  · show s.sequence_number + 1 + 1 = s.sequence_number + 2
    omega
  · show (s.sequence_number + 1 + 1) % 2 = 0
    omega
  · simp only [List.length_append]
    have := cpCount (checkpoint_key s) s.runs
    simp only [splitCount]
    omega
  · simp only [runsMultiset]
    have := cpMass (checkpoint_key s) s.runs
    rw [List.flatten_append, ← Multiset.coe_add]
    exact this

/-- C4 witness state: no run straddles the boundary (`old_top = 0`). -/
def c4w_state : Sequencer :=
  { window_size := 10, top_timestamp := 15, checkpoint := 0, sequence_number := 2,
    runs := [[⟨5, 1, 0⟩, ⟨15, 1, 0⟩]], ready := [], c_threshold := 1000 }

/-- Witness for C4 (amended): on `c4w_state` the checkpoint is reverted
with an even generation, and since no run is split the count stays 1. -/
theorem C4_make_checkpoint_witness :
    ∃ s1, c4w_state.make_checkpoint_ 1 = some (s1, 4) ∧
      s1.sequence_number = 4 ∧ s1.sequence_number % 2 = 0 ∧ s1.ready = [] ∧
      s1.runs.length = c4w_state.runs.length + splitCount c4w_state ∧
      runsMultiset s1 = runsMultiset c4w_state := by
  have h := C4_make_checkpoint_amended c4w_state 1 (by decide) (by decide) (by decide)
  exact h

/-! ## Chunk codec (`compression.h`)

Stream writers/readers from `compression.h`.  Values are `Nat` bit
patterns (mod `2^64` resp. `2^32`).  The byte buffer is modelled as an
unbounded byte list; `Base128Int<int64_t>::put` applied to a bit pattern
with the sign bit set never terminates (the arithmetic right shift keeps
the value nonzero), so the signed put is `Option`-valued with `none` for
such patterns. -/

/-- One loop iteration budget per 7-bit group of `Base128Int::put`.
`TVal` has at most 64 bits, so 64 iterations always cover the loop
(10 are ever needed); the fuel only makes the recursion structural. -/
def vlqF : Nat → Nat → List Nat
  | 0, _ => []
  | fuel + 1, x => if x < 128 then [x] else (x % 128 + 128) :: vlqF fuel (x / 128)

/-- `Base128Int::put` for an unsigned value: little-endian 7-bit groups,
MSB set on all but the last byte; `value == 0` emits one full zero
byte. -/
def vlq (x : Nat) : List Nat := vlqF 64 x

/-- `Base128Int<int64_t>::put` on a bit pattern: diverges (never fits any
buffer) when the sign bit is set. -/
def vlq_i64 (x : Nat) : Option (List Nat) :=
  if x < 2 ^ 63 then some (vlq x) else none

/-- `Base128Int::get`: parse one varint from the byte stream; reaching
the end of the stream mid-value is an error. -/
def vlqGet : List Nat → Option (Nat × List Nat)
  | [] => none
  | b :: rest =>
    if b < 128 then some (b, rest)
    else
      match vlqGet rest with
      | some (v, r) => some (b % 128 + 128 * v, r)
      | none => none

/-- `Base128StreamReader::next<int64_t>`: the accumulator is an `int64_t`,
so the parsed value is reduced to a 64-bit pattern. -/
def vlqGet64 (l : List Nat) : Option (Nat × List Nat) :=
  (vlqGet l).map (fun p => (p.1 % U64, p.2))

/-- `ZigZagStreamWriter::put`: `(value << 1) ^ (value >> 63)` in `int64_t`
arithmetic, on 64-bit patterns (`x >> 63` arithmetically is all-ones for
negative patterns, making the xor a complement). -/
def zigzag (x : Nat) : Nat :=
  let t := (2 * x) % U64
  if x < 2 ^ 63 then t else t ^^^ (U64 - 1)

/-- `ZigZagStreamReader::next`: `(n >> 1) ^ (-(n & 1))` in `int64_t`
arithmetic (`n >> 1` is an arithmetic shift). -/
def unzigzag (n : Nat) : Nat :=
  let t := if n < 2 ^ 63 then n / 2 else n / 2 + 2 ^ 63
  if n % 2 = 1 then t ^^^ (U64 - 1) else t

/-- Emission of one RLE `(count, value)` pair through the signed Base128
writer (`stream_.put(reps_); stream_.put(prev_);`). -/
def rle_emit_pair (reps prev : Nat) : Option (List Nat) :=
  match vlq_i64 reps with
  | none => none
  | some b1 =>
    match vlq_i64 prev with
    | none => none
    | some b2 => some (b1 ++ b2)

/-- Writer state of the composed `DeltaRLEWriter`
(`int64_t → Delta → ZigZag → RLE → Base128`): `DeltaStreamWriter::prev_`,
`RLEStreamWriter::prev_`, `RLEStreamWriter::reps_` and the bytes written
so far. -/
structure DRWState where
  dprev : Nat
  rprev : Nat
  rreps : Nat
  out : List Nat
  deriving DecidableEq, Repr

/-- One `DeltaRLEWriter::put(value)`: delta against `dprev`, zigzag, then
the RLE `put` (emitting the pending pair when the value changes). -/
def drw_put (st : DRWState) (v : Nat) : Option DRWState :=
  let d := sub64 v st.dprev
  let z := zigzag d
  if z = st.rprev then
    some { st with dprev := v, rreps := add64 st.rreps 1 }
  else if st.rreps ≠ 0 then
    (rle_emit_pair st.rreps st.rprev).map (fun bs =>
      { dprev := v, rprev := z, rreps := 1, out := st.out ++ bs })
  else
    some { dprev := v, rprev := z, rreps := 1, out := st.out }

/-- Run `DeltaRLEWriter::put` over a whole column. -/
def drw_run : DRWState → List Nat → Option DRWState
  | st, [] => some st
  | st, v :: vs =>
    match drw_put st v with
    | none => none
    | some st1 => drw_run st1 vs

/-- `DeltaRLEWriter`: put every column value, then `commit()` (which
emits the final `(reps_, prev_)` pair).  `none` models the C++ writer
failing (throwing / never terminating). -/
def DeltaRLEWriter_encode (xs : List Nat) : Option (List Nat) :=
  match drw_run { dprev := 0, rprev := 0, rreps := 0, out := [] } xs with
  | none => none
  | some st =>
    match rle_emit_pair st.rreps st.rprev with
    | none => none
    | some bs => some (st.out ++ bs)

/-- Reader state of the composed `DeltaRLEReader`
(`Base128 → RLE → ZigZag → Delta → int64_t`). -/
structure DRRState where
  dprev : Nat
  rprev : Nat
  rreps : Nat
  inp : List Nat
  deriving DecidableEq, Repr

/-- `RLEStreamReader::next`: when `reps_` is zero read a fresh
`(count, value)` pair, then count down and return `prev_` (the decrement
wraps in `int64_t`; a zero count is not checked by the code). -/
def rle_next (st : DRRState) : Option (Nat × DRRState) :=
  if st.rreps = 0 then
    match vlqGet64 st.inp with
    | none => none
    | some (c, r1) =>
      match vlqGet64 r1 with
      | none => none
      | some (p, r2) =>
        some (p, { st with rreps := sub64 c 1, rprev := p, inp := r2 })
  else
    some (st.rprev, { st with rreps := sub64 st.rreps 1 })

/-- `DeltaRLEReader::next`: unzigzag the RLE value and add it to the
running prefix sum. -/
def delta_next (st : DRRState) : Option (Nat × DRRState) :=
  match rle_next st with
  | none => none
  | some (n, st1) =>
    let v := add64 st1.dprev (unzigzag n)
    some (v, { st1 with dprev := v })

/-- Read `n` values through the composed `DeltaRLEReader`. -/
def DeltaRLEReader_decode (st : DRRState) : Nat → Option (List Nat)
  | 0 => some []
  | n + 1 =>
    match delta_next st with
    | none => none
    | some (v, st1) => (DeltaRLEReader_decode st1 n).map (v :: ·)

/-! Unsigned pipelines used by `page.cpp` (`complete_chunk`): timestamps
go `u64 → Delta → RLE → Base128`, paramids plain `u64 → Base128`, lengths
`u32 → RLE → Base128`.  Unsigned `put` always terminates. -/

/-- State of an unsigned `RLEStreamWriter`. -/
structure RLEWState where
  prev : Nat
  reps : Nat
  deriving DecidableEq, Repr

/-- Unsigned `RLEStreamWriter::put` straight into a Base128 stream;
`mod` is the modulus of the `TVal` (`2^64` or `2^32`). -/
def rle_put_u (mod : Nat) (st : RLEWState × List Nat) (v : Nat) : RLEWState × List Nat :=
  if v = st.1.prev then ({ st.1 with reps := (st.1.reps + 1) % mod }, st.2)
  else if st.1.reps ≠ 0 then
    ({ prev := v, reps := 1 }, st.2 ++ vlq st.1.reps ++ vlq st.1.prev)
  else ({ prev := v, reps := 1 }, st.2)

/-- Unsigned RLE → Base128 encoding of a column, final pair emitted on
`commit`. -/
def rle_encode_u (mod : Nat) (xs : List Nat) : List Nat :=
  let st := xs.foldl (rle_put_u mod) ({ prev := 0, reps := 0 }, [])
  st.2 ++ vlq st.1.reps ++ vlq st.1.prev

/-- `DeltaStreamWriter` on `u64`: wrapping differences against the
previous value. -/
def deltas64 (prev : Nat) : List Nat → List Nat
  | [] => []
  | v :: vs => sub64 v prev :: deltas64 v vs

/-- `DeltaRLETSWriter` (timestamps): `u64 → Delta → RLE → Base128`. -/
def DeltaRLETS_encode (xs : List Nat) : List Nat :=
  rle_encode_u U64 (deltas64 0 xs)

/-- `Base128IdWriter` (paramids): one varint per id. -/
def Base128Id_encode (xs : List Nat) : List Nat :=
  (xs.map vlq).flatten

/-- `RLELenWriter` (blob lengths): `u32 → RLE → Base128`. -/
def RLELen_encode (xs : List Nat) : List Nat :=
  rle_encode_u U32 xs

/-! ## C2: round trip of the Delta→ZigZag→RLE→Base128 pipeline -/

theorem vlqF_rt : ∀ (fuel x : Nat) (rest : List Nat), x < 128 ^ (fuel + 1) →
    vlqGet (vlqF (fuel + 1) x ++ rest) = some (x, rest) := by
  intro fuel
  induction fuel with
  | zero =>
    intro x rest hx
    have h : x < 128 := by simpa using hx
    simp [vlqF, h, vlqGet]
  | succ f ih =>
    intro x rest hx
    by_cases h : x < 128
    · simp [vlqF, h, vlqGet]
    · have hb : ¬ x % 128 + 128 < 128 := by omega
      have hd : x / 128 < 128 ^ (f + 1) := by
        have hp : 128 ^ (f + 1 + 1) = 128 ^ (f + 1) * 128 := by ring
        rw [hp] at hx
        omega
      rw [show vlqF (f + 1 + 1) x = (x % 128 + 128) :: vlqF (f + 1) (x / 128) from by
        simp [vlqF, h]]
      simp only [List.cons_append, vlqGet, if_neg hb]
      rw [show (vlqF (f + 1) (x / 128)).append rest = vlqF (f + 1) (x / 128) ++ rest from rfl]
      rw [ih (x / 128) rest hd]
      simp only [Option.some.injEq, Prod.mk.injEq]
      refine ⟨by omega, trivial⟩

theorem vlq_rt (x : Nat) (rest : List Nat) (h : x < U64) :
    vlqGet (vlq x ++ rest) = some (x, rest) := by
  have hb : x < 128 ^ (63 + 1) := by
    have h1 : (128 : Nat) ^ 64 = 2 ^ 448 := by norm_num [show (128 : Nat) = 2 ^ 7 by norm_num, ← pow_mul]
    have h2 : (2 : Nat) ^ 64 < 2 ^ 448 := by
      exact Nat.pow_lt_pow_right (by omega) (by omega)
    unfold U64 at h
    omega
  exact vlqF_rt 63 x rest hb

theorem vlqGet64_rt (x : Nat) (rest : List Nat) (h : x < U64) :
    vlqGet64 (vlq x ++ rest) = some (x, rest) := by
  simp [vlqGet64, vlq_rt x rest h, Nat.mod_eq_of_lt h]

theorem xor_allones : ∀ (n y : Nat), y < 2 ^ n → y ^^^ (2 ^ n - 1) = 2 ^ n - 1 - y := by
  intro n
  induction n with
  | zero =>
    intro y h
    have : y = 0 := by omega
    subst this
    decide
  | succ m ih =>
    intro y h
    have h2 : 2 ^ (m + 1) = 2 * 2 ^ m := by ring
    have hq : y / 2 < 2 ^ m := by omega
    have hy : y = Nat.bit (y % 2 == 1) (y / 2) := by
      rw [Nat.bit_val]
      rcases Nat.even_or_odd y with he | ho
      · have h0 : y % 2 = 0 := Nat.even_iff.mp he
        simp [h0]
        omega
      · have h1 : y % 2 = 1 := Nat.odd_iff.mp ho
        simp [h1]
        omega
    have hm : 2 ^ (m + 1) - 1 = Nat.bit true (2 ^ m - 1) := by
      rw [Nat.bit_val]
      simp
      omega
    rw [hy, hm, Nat.xor_bit, ih _ hq]
    rw [Nat.bit_val, Nat.bit_val]
    rcases Nat.even_or_odd y with he | ho
    · have h0 : y % 2 = 0 := Nat.even_iff.mp he
      simp [h0]
      omega
    · have h1 : y % 2 = 1 := Nat.odd_iff.mp ho
      simp [h1]
      omega

/-- Characterization of `zigzag` as plain arithmetic. -/
theorem zigzag_eq (x : Nat) (hx : x < U64) :
    zigzag x = if x < 2 ^ 63 then 2 * x else 2 ^ 65 - 1 - 2 * x := by
  unfold zigzag U64
  by_cases h : x < 2 ^ 63
  · simp only [h, if_true]
    rw [Nat.mod_eq_of_lt (by unfold U64 at *; omega)]
  · simp only [h, if_false]
    have ht : (2 * x) % 2 ^ 64 = 2 * x - 2 ^ 64 := by
      unfold U64 at hx
      omega
    rw [ht, xor_allones 64 (2 * x - 2 ^ 64) (by unfold U64 at hx; omega)]
    unfold U64 at hx
    omega

/-- The zigzag reader inverts the writer whenever the written pattern has
no sign bit (exactly the patterns the Base128 stage can store). -/
theorem unzigzag_zigzag (d : Nat) (hd : d < U64) (h : zigzag d < 2 ^ 63) :
    unzigzag (zigzag d) = d := by
  rw [zigzag_eq d hd] at *
  unfold U64 at hd
  by_cases hlt : d < 2 ^ 63
  · simp only [hlt, if_true] at h ⊢
    unfold unzigzag
    have he : ¬ (2 * d) % 2 = 1 := by omega
    simp only [if_pos h, if_neg he]
    omega
  · simp only [hlt, if_false] at h ⊢
    unfold unzigzag
    have hrange : 2 ^ 64 ≤ 2 * d ∧ 2 * d < 2 ^ 65 := by omega
    have ho : (2 ^ 65 - 1 - 2 * d) % 2 = 1 := by omega
    have ht : (2 ^ 65 - 1 - 2 * d) / 2 = 2 ^ 64 - 1 - d := by omega
    simp only [if_pos h, if_pos ho, ht]
    unfold U64
    rw [xor_allones 64 (2 ^ 64 - 1 - d) (by omega)]
    omega

/-- The zigzagged wrapped deltas of a column — the value stream the RLE
stage sees. -/
def zzDeltas (dprev : Nat) : List Nat → List Nat
  | [] => []
  | v :: vs => zigzag (sub64 v dprev) :: zzDeltas v vs

theorem zzDeltas_length : ∀ (xs : List Nat) (dprev : Nat), (zzDeltas dprev xs).length = xs.length := by
  intro xs
  induction xs with
  | nil => intro dprev; rfl
  | cons v vs ih => intro dprev; simp [zzDeltas, ih]

/-- Byte stream produced by the RLE+Base128 stages from a value stream,
starting from RLE state `(rprev, rreps)` and ending with the `commit`
pair. -/
def pairsEnc (rprev rreps : Nat) : List Nat → Option (List Nat)
  | [] => rle_emit_pair rreps rprev
  | z :: zs =>
    if z = rprev then pairsEnc rprev (add64 rreps 1) zs
    else if rreps ≠ 0 then
      match rle_emit_pair rreps rprev, pairsEnc z 1 zs with
      | some b1, some b2 => some (b1 ++ b2)
      | _, _ => none
    else pairsEnc z 1 zs

/-- The stateful writer equals the spec-level `pairsEnc` over the
zigzagged deltas. -/
theorem enc_eq : ∀ (xs : List Nat) (st : DRWState),
    (match drw_run st xs with
     | none => none
     | some st1 =>
       match rle_emit_pair st1.rreps st1.rprev with
       | none => none
       | some bs => some (st1.out ++ bs))
    = (pairsEnc st.rprev st.rreps (zzDeltas st.dprev xs)).map (st.out ++ ·) := by
  intro xs
  induction xs with
  | nil =>
    intro st
    simp only [drw_run, zzDeltas, pairsEnc]
    cases h : rle_emit_pair st.rreps st.rprev <;> simp [h]
  | cons v vs ih =>
    intro st
    simp only [drw_run, zzDeltas, pairsEnc]
    by_cases hz : zigzag (sub64 v st.dprev) = st.rprev
    · simp only [drw_put, hz, if_pos rfl]
      have := ih { st with dprev := v, rreps := add64 st.rreps 1 }
      simpa using this
    · by_cases hr : st.rreps ≠ 0
      · simp only [drw_put, if_neg hz, if_pos hr]
        cases he : rle_emit_pair st.rreps st.rprev with
        | none => simp [he, hz, hr]
        | some bs =>
          simp only [he, Option.map_some']
          have := ih { dprev := v, rprev := zigzag (sub64 v st.dprev), rreps := 1, out := st.out ++ bs }
          rw [this]
          simp only [if_neg hz, if_pos hr, he]
          cases hp : pairsEnc (zigzag (sub64 v st.dprev)) 1 (zzDeltas v vs) <;>
            simp [hp, List.append_assoc]
      · simp only [drw_put, if_neg hz, if_neg hr]
        have := ih { dprev := v, rprev := zigzag (sub64 v st.dprev), rreps := 1, out := st.out }
        rw [this]

/-- Values read back by the RLE+Base128 reader stages alone. -/
def rleDec (rprev rreps : Nat) (bs : List Nat) : Nat → Option (List Nat)
  | 0 => some []
  | n + 1 =>
    if rreps = 0 then
      match vlqGet64 bs with
      | none => none
      | some (c, r1) =>
        match vlqGet64 r1 with
        | none => none
        | some (p, r2) => (rleDec p (sub64 c 1) r2 n).map (p :: ·)
    else (rleDec rprev (sub64 rreps 1) bs n).map (rprev :: ·)

/-- The unzigzag+prefix-sum post-processing of the delta reader. -/
def undeltaZZ (dprev : Nat) : List Nat → List Nat
  | [] => []
  | w :: ws => add64 dprev (unzigzag w) :: undeltaZZ (add64 dprev (unzigzag w)) ws

/-- The stateful reader equals `rleDec` followed by `undeltaZZ`. -/
theorem dec_eq : ∀ (n : Nat) (st : DRRState),
    DeltaRLEReader_decode st n
      = (rleDec st.rprev st.rreps st.inp n).map (undeltaZZ st.dprev) := by
  intro n
  induction n with
  | zero => intro st; simp [DeltaRLEReader_decode, rleDec, undeltaZZ]
  | succ m ih =>
    intro st
    simp only [DeltaRLEReader_decode, delta_next, rle_next, rleDec]
    by_cases h0 : st.rreps = 0
    · simp only [if_pos h0]
      cases h1 : vlqGet64 st.inp with
      | none => simp [h1]
      | some cr =>
        obtain ⟨c, r1⟩ := cr
        simp only [h1]
        cases h2 : vlqGet64 r1 with
        | none => simp [h2]
        | some pr =>
          obtain ⟨p, r2⟩ := pr
          simp only [h2, ih]
          cases h3 : rleDec p (sub64 c 1) r2 m <;> simp [h3, undeltaZZ]
    · simp only [if_neg h0]
      simp only [ih]
      cases h3 : rleDec st.rprev (sub64 st.rreps 1) st.inp m <;> simp [h3, undeltaZZ]

theorem sub64_one (k : Nat) (h1 : 1 ≤ k) (h2 : k < U64) : sub64 k 1 = k - 1 := by
  unfold sub64 U64 at *
  omega

theorem add64_one (a : Nat) (h : a + 1 < U64) : add64 a 1 = a + 1 := by
  unfold add64 U64 at *
  omega

theorem rleDec_countdown : ∀ (r m q p : Nat) (bs : List Nat), r < 2 ^ 63 →
    rleDec p r bs (r + m) = (rleDec p 0 bs m).map (fun l => List.replicate r p ++ l) := by
  intro r
  induction r with
  | zero =>
    intro m q p bs hr
    cases h : rleDec p 0 bs m <;> simp [h]
  | succ k ih =>
    intro m q p bs hr
    have hn : k + 1 + m = (k + m) + 1 := by omega
    rw [hn]
    simp only [rleDec, if_neg (by omega : ¬ k + 1 = 0)]
    rw [sub64_one (k + 1) (by omega) (by unfold U64; omega)]
    simp only [Nat.add_sub_cancel]
    rw [ih m q p bs (by omega)]
    cases h : rleDec p 0 bs m <;> simp [h, List.replicate_succ]

theorem rleDec_group : ∀ (c p m q : Nat) (rest : List Nat), 1 ≤ c → c < 2 ^ 63 → p < 2 ^ 63 →
    rleDec q 0 (vlq c ++ (vlq p ++ rest)) (c + m)
      = (rleDec p 0 rest m).map (fun l => List.replicate c p ++ l) := by
  intro c p m q rest hc1 hc2 hp
  have hn : c + m = (c - 1 + m) + 1 := by omega
  rw [hn]
  have h1 := vlqGet64_rt c (vlq p ++ rest) (by unfold U64; omega)
  have h2 := vlqGet64_rt p rest (by unfold U64; omega)
  simp only [rleDec, h1, h2, if_pos rfl]
  rw [sub64_one c hc1 (by unfold U64; omega)]
  rw [rleDec_countdown (c - 1) m q p rest (by omega)]
  have hrep : List.replicate c p = p :: List.replicate (c - 1) p := by
    conv_lhs => rw [show c = (c - 1) + 1 by omega]
    rw [List.replicate_succ]
  cases h : rleDec p 0 rest m <;> simp [h, hrep]

theorem pairsEnc_rt : ∀ (zs : List Nat) (rprev rreps : Nat) (bs rest : List Nat) (q : Nat),
    rreps + zs.length < 2 ^ 63 →
    pairsEnc rprev rreps zs = some bs →
    rleDec q 0 (bs ++ rest) (rreps + zs.length) = some (List.replicate rreps rprev ++ zs) := by
  intro zs
  induction zs with
  | nil =>
    intro rprev rreps bs rest q hlen henc
    simp only [pairsEnc, rle_emit_pair, vlq_i64] at henc
    by_cases hr : rreps < 2 ^ 63
    · rw [if_pos hr] at henc
      by_cases hp : rprev < 2 ^ 63
      · rw [if_pos hp] at henc
        simp only [Option.some.injEq] at henc
        subst henc
        simp only [List.length_nil, Nat.add_zero, List.append_nil]
        rcases Nat.eq_zero_or_pos rreps with h0 | h0
        · subst h0; simp [rleDec]
        · rw [List.append_assoc]
          have hg := rleDec_group rreps rprev 0 q rest h0 hr hp
          rw [Nat.add_zero] at hg
          rw [hg]
          simp [rleDec]
      · rw [if_neg hp] at henc; cases henc
    · rw [if_neg hr] at henc; cases henc
  | cons z zs ih =>
    intro rprev rreps bs rest q hlen henc
    simp only [pairsEnc] at henc
    by_cases hz : z = rprev
    · rw [if_pos hz] at henc
      have hsmall : add64 rreps 1 = rreps + 1 := by
        apply add64_one
        unfold U64
        simp only [List.length_cons] at hlen
        omega
      rw [hsmall] at henc
      have hlen' : (rreps + 1) + zs.length < 2 ^ 63 := by
        simp only [List.length_cons] at hlen; omega
      have h := ih rprev (rreps + 1) bs rest q hlen' henc
      have hn : rreps + (z :: zs).length = (rreps + 1) + zs.length := by
        simp only [List.length_cons]; omega
      rw [hn, h]
      subst hz
      rw [List.replicate_succ']
      simp
    · rw [if_neg hz] at henc
      by_cases hr : rreps ≠ 0
      · rw [if_pos hr] at henc
        cases he : rle_emit_pair rreps rprev with
        | none => rw [he] at henc; cases henc
        | some b1 =>
          cases hp2 : pairsEnc z 1 zs with
          | none => rw [he, hp2] at henc; cases henc
          | some b2 =>
            rw [he, hp2] at henc
            simp only [Option.some.injEq] at henc
            subst henc
            have hrb : rreps < 2 ^ 63 ∧ rprev < 2 ^ 63 ∧ b1 = vlq rreps ++ vlq rprev := by
              simp only [rle_emit_pair, vlq_i64] at he
              by_cases h1 : rreps < 2 ^ 63
              · rw [if_pos h1] at he
                by_cases h2 : rprev < 2 ^ 63
                · rw [if_pos h2] at he
                  simp only [Option.some.injEq] at he
                  exact ⟨h1, h2, he.symm⟩
                · rw [if_neg h2] at he; cases he
              · rw [if_neg h1] at he; cases he
            obtain ⟨h1, h2, hb1⟩ := hrb
            have hlen' : 1 + zs.length < 2 ^ 63 := by
              simp only [List.length_cons] at hlen; omega
            have hrec := ih z 1 b2 rest rprev hlen' hp2
            have hn : rreps + (z :: zs).length = rreps + (1 + zs.length) := by
              simp only [List.length_cons]; omega
            rw [hn, hb1]
            have hbytes : ((vlq rreps ++ vlq rprev) ++ b2) ++ rest
                = vlq rreps ++ (vlq rprev ++ (b2 ++ rest)) := by
              simp [List.append_assoc]
            rw [hbytes]
            rw [rleDec_group rreps rprev (1 + zs.length) q (b2 ++ rest) (by omega) h1 h2]
            rw [hrec]
            simp
      · rw [if_neg hr] at henc
        simp only [ne_eq, Decidable.not_not] at hr
        subst hr
        have hlen' : 1 + zs.length < 2 ^ 63 := by
          simp only [List.length_cons] at hlen; omega
        have h := ih z 1 bs rest q hlen' henc
        have hn : 0 + (z :: zs).length = 1 + zs.length := by
          simp only [List.length_cons]; omega
        rw [hn, h]
        simp

theorem pairsEnc_vals : ∀ (zs : List Nat) (rprev rreps : Nat) (bs : List Nat),
    rreps + zs.length < 2 ^ 63 →
    pairsEnc rprev rreps zs = some bs →
    (rreps ≠ 0 → rprev < 2 ^ 63) ∧ ∀ z ∈ zs, z < 2 ^ 63 := by
  intro zs
  induction zs with
  | nil =>
    intro rprev rreps bs hlen henc
    simp only [pairsEnc, rle_emit_pair, vlq_i64] at henc
    by_cases h1 : rreps < 2 ^ 63
    · rw [if_pos h1] at henc
      by_cases h2 : rprev < 2 ^ 63
      · exact ⟨fun _ => h2, by simp⟩
      · rw [if_neg h2] at henc; cases henc
    · rw [if_neg h1] at henc; cases henc
  | cons z zs ih =>
    intro rprev rreps bs hlen henc
    simp only [pairsEnc] at henc
    by_cases hz : z = rprev
    · rw [if_pos hz] at henc
      have hsmall : add64 rreps 1 = rreps + 1 := by
        apply add64_one
        unfold U64
        simp only [List.length_cons] at hlen
        omega
      rw [hsmall] at henc
      have h := ih rprev (rreps + 1) bs
        (by simp only [List.length_cons] at hlen; omega) henc
      refine ⟨fun _ => h.1 (by omega), ?_⟩
      intro w hw
      rcases List.mem_cons.mp hw with hww | hww
      · subst hww; rw [hz]; exact h.1 (by omega)
      · exact h.2 w hww
    · rw [if_neg hz] at henc
      by_cases hr : rreps ≠ 0
      · rw [if_pos hr] at henc
        cases he : rle_emit_pair rreps rprev with
        | none => rw [he] at henc; cases henc
        | some b1 =>
          cases hp2 : pairsEnc z 1 zs with
          | none => rw [he, hp2] at henc; cases henc
          | some b2 =>
            have h2 : rprev < 2 ^ 63 := by
              simp only [rle_emit_pair, vlq_i64] at he
              by_cases ha : rreps < 2 ^ 63
              · rw [if_pos ha] at he
                by_cases hb : rprev < 2 ^ 63
                · exact hb
                · rw [if_neg hb] at he; cases he
              · rw [if_neg ha] at he; cases he
            have h := ih z 1 b2
              (by simp only [List.length_cons] at hlen; omega) hp2
            refine ⟨fun _ => h2, ?_⟩
            intro w hw
            rcases List.mem_cons.mp hw with hww | hww
            · subst hww; exact h.1 (by omega)
            · exact h.2 w hww
      · rw [if_neg hr] at henc
        have h := ih z 1 bs
          (by simp only [List.length_cons] at hlen; omega) henc
        simp only [ne_eq, not_not] at hr
        refine ⟨fun hcon => absurd hr hcon, ?_⟩
        intro w hw
        rcases List.mem_cons.mp hw with hww | hww
        · subst hww; exact h.1 (by omega)
        · exact h.2 w hww

theorem add64_sub64 (a v : Nat) (ha : a < U64) (hv : v < U64) :
    add64 a (sub64 v a) = v := by
  unfold add64 sub64 U64 at *
  omega

theorem sub64_lt (a b : Nat) : sub64 a b < U64 := by
  unfold sub64 U64
  omega

theorem undeltaZZ_zzDeltas : ∀ (xs : List Nat) (dprev : Nat), dprev < U64 →
    (∀ x ∈ xs, x < U64) →
    (∀ z ∈ zzDeltas dprev xs, z < 2 ^ 63) →
    undeltaZZ dprev (zzDeltas dprev xs) = xs := by
  intro xs
  induction xs with
  | nil => intro dprev _ _ _; rfl
  | cons v vs ih =>
    intro dprev hd hx hz
    have hv : v < U64 := hx v (by simp)
    have hzv : zigzag (sub64 v dprev) < 2 ^ 63 := hz _ (by simp [zzDeltas])
    simp only [zzDeltas, undeltaZZ]
    rw [unzigzag_zigzag (sub64 v dprev) (sub64_lt v dprev) hzv, add64_sub64 dprev v hd hv]
    rw [ih v hv (fun x hxx => hx x (by simp [hxx])) (fun z hzz => hz z (by simp [zzDeltas, hzz]))]

/-- C2: the composed column codec `int64 → Delta → ZigZag → RLE → Base128`
(`DeltaRLEWriter` / `DeltaRLEReader`) is the identity on every column it
can encode: whenever the writer produces a byte stream (it throws for
deltas whose zigzag pattern has the sign bit set and for columns of
≥ 2^63 values, which no real buffer can hold), reading the column length
back from that stream returns exactly the original values — including
zero values, for which the Base128 stage emits a full byte and the RLE
stage emits a `(count, 0)` pair. -/
theorem C2_codec_roundtrip (xs bs : List Nat)
    (hx : ∀ x ∈ xs, x < U64) (hlen : xs.length < 2 ^ 63)
    (henc : DeltaRLEWriter_encode xs = some bs) :
    DeltaRLEReader_decode ⟨0, 0, 0, bs⟩ xs.length = some xs := by
  have hzslen : (zzDeltas 0 xs).length = xs.length := zzDeltas_length xs 0
  unfold DeltaRLEWriter_encode at henc
  rw [enc_eq xs ⟨0, 0, 0, []⟩] at henc
  cases hp : pairsEnc 0 0 (zzDeltas 0 xs) with
  | none => rw [hp] at henc; cases henc
  | some bs0 =>
    rw [hp] at henc
    simp only [Option.map_some', List.nil_append, Option.some.injEq] at henc
    subst henc
    have hlen' : 0 + (zzDeltas 0 xs).length < 2 ^ 63 := by rw [hzslen]; omega
    have hdec := pairsEnc_rt (zzDeltas 0 xs) 0 0 bs0 [] 0 hlen' hp
    have hvals := pairsEnc_vals (zzDeltas 0 xs) 0 0 bs0 hlen' hp
    rw [dec_eq xs.length ⟨0, 0, 0, bs0⟩]
    simp only
    rw [List.append_nil] at hdec
    have hn : xs.length = 0 + (zzDeltas 0 xs).length := by rw [hzslen]; omega
    rw [hn, hdec]
    simp only [List.replicate_zero, List.nil_append, Option.map_some', Option.some.injEq]
    exact undeltaZZ_zzDeltas xs 0 (by unfold U64; omega) hx hvals.2

/-- Witness for C2: the column `[0, 5, 5, 3]` (with a zero and a
backward step, whose delta is negative) encodes and decodes back. -/
theorem C2_codec_roundtrip_witness :
    (∀ x ∈ [0, 5, 5, 3], x < U64) ∧ ([0, 5, 5, 3] : List Nat).length < 2 ^ 63 ∧
    DeltaRLEReader_decode ⟨0, 0, 0, (DeltaRLEWriter_encode [0, 5, 5, 3]).getD []⟩ 4
      = some [0, 5, 5, 3] := by
  refine ⟨by decide, by decide, ?_⟩
  have henc : DeltaRLEWriter_encode [0, 5, 5, 3]
      = some ((DeltaRLEWriter_encode [0, 5, 5, 3]).getD []) := by decide
  exact C2_codec_roundtrip [0, 5, 5, 3] _ (by decide) (by decide) henc

/-! ## k-way merge (`kway_merge` in `sequencer.cpp`)

A skew heap of `(value, run_index)` pairs with a direction-parameterized
comparator merges the runs; the consumer may interrupt by returning
`false`, in which case the remaining heap contents are rebuilt into a
fresh `runs` array that replaces the input vector.  The heap is modelled
as a list: `top` is the minimal element w.r.t. `le` (ties are
implementation-defined in `boost::heap::skew_heap`, modelled as
first-in-list), and the interruption loop visits items in list order
(the C++ heap iteration order is likewise unspecified). -/

/-- Pop the heap top (minimal element w.r.t. `le`). -/
def heapPop {V : Type} (le : V → V → Bool) :
    List (V × Nat) → Option ((V × Nat) × List (V × Nat))
  | [] => none
  | x :: xs =>
    match heapPop le xs with
    | none => some (x, [])
    | some (m, rest) => if le x.1 m.1 then some (x, xs) else some (m, x :: rest)

theorem heapPop_cons_isSome {V : Type} (le : V → V → Bool) :
    ∀ (x : V × Nat) (xs : List (V × Nat)), (heapPop le (x :: xs)).isSome = true := by
  intro x xs
  rw [heapPop]
  cases h : heapPop le xs with
  | none => simp
  | some mr =>
    obtain ⟨m, rest⟩ := mr
    by_cases hle : le x.1 m.1 <;> simp [hle]

theorem heapPop_perm {V : Type} (le : V → V → Bool) :
    ∀ (h : List (V × Nat)) (p : V × Nat) (rest : List (V × Nat)),
      heapPop le h = some (p, rest) → List.Perm h (p :: rest) := by
  intro h
  induction h with
  | nil => intro p rest hp; simp [heapPop] at hp
  | cons x xs ih =>
    intro p rest hp
    rw [heapPop] at hp
    cases hxs : heapPop le xs with
    | none =>
      have hnil : xs = [] := by
        cases xs with
        | nil => rfl
        | cons y ys =>
          exfalso
          have hs := heapPop_cons_isSome le y ys
          rw [hxs] at hs
          simp at hs
      subst hnil
      rw [show heapPop le ([] : List (V × Nat)) = none from rfl] at hp
      dsimp only at hp
      simp only [Option.some.injEq, Prod.mk.injEq] at hp
      obtain ⟨rfl, rfl⟩ := hp
      exact List.Perm.refl _
    | some mr =>
      obtain ⟨m, rest'⟩ := mr
      rw [hxs] at hp
      dsimp only at hp
      have hperm := ih m rest' hxs
      by_cases hle : le x.1 m.1
      · rw [if_pos hle] at hp
        simp only [Option.some.injEq, Prod.mk.injEq] at hp
        obtain ⟨rfl, rfl⟩ := hp
        exact List.Perm.refl _
      · rw [if_neg hle] at hp
        simp only [Option.some.injEq, Prod.mk.injEq] at hp
        obtain ⟨rfl, rfl⟩ := hp
        exact (hperm.cons x).trans (List.Perm.swap m x rest')

theorem heapPop_length {V : Type} (le : V → V → Bool) (h : List (V × Nat))
    (p : V × Nat) (rest : List (V × Nat)) (hp : heapPop le h = some (p, rest)) :
    rest.length + 1 = h.length := by
  simpa using (heapPop_perm le h p rest hp).length_eq.symm

/-- The initial heap: front of every non-empty run, pushed in index
order with a running index. -/
def initHeap {V : Type} (ix : Nat) : List (List V) → List (V × Nat)
  | [] => []
  | r :: rs =>
    match r.head? with
    | none => initHeap (ix + 1) rs
    | some v => (v, ix) :: initHeap (ix + 1) rs

/-- The merge loop.  The fuel is only there to make the recursion
structural (and hence executable); `kway_merge` always supplies
`heap size + total range size + 1`, which the loop never exhausts
(every iteration pops one element net). -/
def kwayLoop {V S : Type} (le : V → V → Bool) (cons : S → V → S × Bool) :
    Nat → List (V × Nat) → List (List V) → S → S × List (List V)
  | 0, _, _, st => (st, [])
  | fuel + 1, heap, ranges, st =>
    match heapPop le heap with
    | none => (st, [])
    | some ((v, ix), rest) =>
      let cr := cons st v
      if cr.2 then
        match ranges.getD ix [] with
        | [] => kwayLoop le cons fuel rest ranges cr.1
        | w :: tl => kwayLoop le cons fuel ((w, ix) :: rest) (ranges.set ix tl) cr.1
      else
        (cr.1, heap.map (fun p => p.1 :: ranges.getD p.2 []))

/-- `kway_merge<Predicate, AKU_CURSOR_DIR_FORWARD>` from
`sequencer.cpp`: build the ranges (each run advanced past its front)
and the heap, then run the loop.  Returns the final consumer state and
the vector that replaces `runs` (empty on normal completion, the
rebuilt remainder on interruption). -/
def kway_merge {V S : Type} (le : V → V → Bool) (cons : S → V → S × Bool)
    (runs : List (List V)) (st : S) : S × List (List V) :=
  let ranges := runs.map (List.drop 1)
  let heap := initHeap 0 runs
  kwayLoop le cons (heap.length + (ranges.map List.length).sum + 1) heap ranges st

/-- `RunIter<TRun, dir>::make_range`: the `AKU_CURSOR_DIR_BACKWARD`
instantiation iterates a run through `rbegin()/rend()`, i.e. reversed;
the forward one through `begin()/end()`. -/
def runRange {V : Type} (backward : Bool) (r : List V) : List V :=
  if backward then r.reverse else r

/-- The direction-parameterised `kway_merge` template: ranges and heap
are built from each run iterated in the template direction (`le` is
the instantiated `Predicate<HeapItem, dir>` comparison, which the
callers flip together with the direction).  `kway_merge_dir le false`
is definitionally the `AKU_CURSOR_DIR_FORWARD` instantiation
`kway_merge le` used by `merge`/`merge_and_compress`; the
`AKU_CURSOR_DIR_BACKWARD` instantiation is used by
`Sequencer::search`. -/
def kway_merge_dir {V S : Type} (le : V → V → Bool) (backward : Bool)
    (cons : S → V → S × Bool) (runs : List (List V)) (st : S) : S × List (List V) :=
  kway_merge le cons (runs.map (runRange backward)) st

/-! ### C6: interruption and per-run monotonicity -/

theorem kwayLoop_sorted {V S : Type} (le : V → V → Bool) (cons : S → V → S × Bool)
    (R : V → V → Prop) :
    ∀ (fuel : Nat) (heap : List (V × Nat)) (ranges : List (List V)) (st : S),
      (∀ r ∈ ranges, List.Chain' R r) →
      (∀ p ∈ heap, List.Chain' R (p.1 :: ranges.getD p.2 [])) →
      (heap.map Prod.snd).Nodup →
      ∀ r ∈ (kwayLoop le cons fuel heap ranges st).2, List.Chain' R r := by
  intro fuel
  induction fuel with
  | zero => intro heap ranges st _ _ _ r hr; simp [kwayLoop] at hr
  | succ f ih =>
    intro heap ranges st hranges hheap hnodup r hr
    rw [kwayLoop] at hr
    cases hpop : heapPop le heap with
    | none => rw [hpop] at hr; simp at hr
    | some prest =>
      obtain ⟨⟨v, ix⟩, rest⟩ := prest
      rw [hpop] at hr
      have hperm := heapPop_perm le heap (v, ix) rest hpop
      have hrest_mem : ∀ q ∈ rest, q ∈ heap := fun q hq => hperm.mem_iff.mpr (by simp [hq])
      have hsnd_perm : List.Perm (heap.map Prod.snd) (ix :: rest.map Prod.snd) := by
        simpa using hperm.map Prod.snd
      have hnodup' : (ix :: rest.map Prod.snd).Nodup := hsnd_perm.nodup_iff.mp hnodup
      have hix_notin : ix ∉ rest.map Prod.snd := (List.nodup_cons.mp hnodup').1
      have hrest_nodup : (rest.map Prod.snd).Nodup := (List.nodup_cons.mp hnodup').2
      simp only at hr
      cases hc : (cons st v).2 with
      | true =>
        rw [hc] at hr
        simp only [if_true] at hr
        cases hrange : ranges.getD ix [] with
        | nil =>
          rw [hrange] at hr
          exact ih rest ranges (cons st v).1 hranges
            (fun p hp => hheap p (hrest_mem p hp)) hrest_nodup r hr
        | cons w tl =>
          rw [hrange] at hr
          have hmemrange : (w :: tl) ∈ ranges := by
            have hlt : ix < ranges.length := by
              by_contra hge
              rw [List.getD_eq_default _ _ (by omega)] at hrange
              cases hrange
            rw [← hrange]
            rw [List.getD_eq_getElem _ _ hlt]
            exact List.getElem_mem hlt
          have hwtl : List.Chain' R (w :: tl) := hranges _ hmemrange
          refine ih ((w, ix) :: rest) (ranges.set ix tl) (cons st v).1 ?_ ?_ ?_ r hr
          · intro r2 hr2
            rcases List.mem_or_eq_of_mem_set hr2 with hold | hnew
            · exact hranges r2 hold
            · subst hnew; exact hwtl.tail
          · intro p hp
            rcases List.mem_cons.mp hp with hpw | hpr
            · subst hpw
              simp only
              have hset : (ranges.set ix tl).getD ix [] = tl := by
                have hlt : ix < ranges.length := by
                  by_contra hge
                  rw [List.getD_eq_default _ _ (by omega)] at hrange
                  cases hrange
                rw [List.getD_eq_getElem _ _ (by simpa using hlt)]
                simp [List.getElem_set_self]
              rw [hset]
              exact hwtl
            · have hne : p.2 ≠ ix := by
                intro hcon
                exact hix_notin (by
                  rw [← hcon]
                  exact List.mem_map_of_mem Prod.snd hpr)
              have hset : (ranges.set ix tl).getD p.2 [] = ranges.getD p.2 [] := by
                by_cases hlt : p.2 < ranges.length
                · rw [List.getD_eq_getElem _ _ (by simpa using hlt),
                      List.getD_eq_getElem _ _ hlt]
                  exact List.getElem_set_ne hne.symm _
                · have hge : ranges.length ≤ p.2 := by omega
                  rw [List.getD_eq_default _ _ (by simpa using hge),
                      List.getD_eq_default _ _ hge]
              rw [hset]
              exact hheap p (hrest_mem p hpr)
          · simp only [List.map_cons, List.nodup_cons]
            exact ⟨hix_notin, hrest_nodup⟩
      | false =>
        rw [hc] at hr
        simp only [Bool.false_eq_true, if_false] at hr
        simp only [List.mem_map] at hr
        obtain ⟨p, hp, rfl⟩ := hr
        exact hheap p hp

theorem initHeap_snd_lb {V : Type} :
    ∀ (runs : List (List V)) (k : Nat) (p : V × Nat), p ∈ initHeap k runs → k ≤ p.2 := by
  intro runs
  induction runs with
  | nil => intro k p hp; simp [initHeap] at hp
  | cons r rs ih =>
    intro k p hp
    rw [initHeap] at hp
    cases hh : r.head? with
    | none =>
      rw [hh] at hp
      have := ih (k + 1) p hp
      omega
    | some v =>
      rw [hh] at hp
      rcases List.mem_cons.mp hp with hpv | hpr
      · subst hpv; simp
      · have := ih (k + 1) p hpr
        omega

theorem initHeap_snd_nodup {V : Type} :
    ∀ (runs : List (List V)) (k : Nat), ((initHeap k runs).map Prod.snd).Nodup := by
  intro runs
  induction runs with
  | nil => intro k; simp [initHeap]
  | cons r rs ih =>
    intro k
    rw [initHeap]
    cases hh : r.head? with
    | none => exact ih (k + 1)
    | some v =>
      simp only [List.map_cons, List.nodup_cons]
      refine ⟨?_, ih (k + 1)⟩
      intro hmem
      rcases List.mem_map.mp hmem with ⟨p, hp, hpk⟩
      have := initHeap_snd_lb rs (k + 1) p hp
      omega

theorem initHeap_head {V : Type} :
    ∀ (runs : List (List V)) (k : Nat) (p : V × Nat), p ∈ initHeap k runs →
      ∃ r, r ∈ runs ∧ r.head? = some p.1 ∧ (runs.map (List.drop 1)).getD (p.2 - k) [] = r.drop 1 := by
  intro runs
  induction runs with
  | nil => intro k p hp; simp [initHeap] at hp
  | cons r rs ih =>
    intro k p hp
    rw [initHeap] at hp
    cases hh : r.head? with
    | none =>
      rw [hh] at hp
      obtain ⟨r2, hr2, hh2, hd2⟩ := ih (k + 1) p hp
      refine ⟨r2, by simp [hr2], hh2, ?_⟩
      have hge := initHeap_snd_lb rs (k + 1) p hp
      have hsub : p.2 - k = (p.2 - (k + 1)) + 1 := by omega
      rw [hsub]
      simpa using hd2
    | some v =>
      rw [hh] at hp
      rcases List.mem_cons.mp hp with hpv | hpr
      · subst hpv
        refine ⟨r, by simp, hh, ?_⟩
        simp
      · obtain ⟨r2, hr2, hh2, hd2⟩ := ih (k + 1) p hpr
        refine ⟨r2, by simp [hr2], hh2, ?_⟩
        have hge := initHeap_snd_lb rs (k + 1) p hpr
        have hsub : p.2 - k = (p.2 - (k + 1)) + 1 := by omega
        rw [hsub]
        simpa using hd2

/-- Counterexample for C6: the `AKU_CURSOR_DIR_BACKWARD` instantiation
of `kway_merge` (used by `Sequencer::search`) iterates each run
reversed, so a consumer that interrupts immediately rebuilds the
S3-sorted run `[ts1, ts3]` as the descending run `[ts3, ts1]` — the
claim's property fails for that direction. -/
theorem C6_kway_merge_interrupt_cex :
    (∀ r ∈ [[(⟨1, 1, 0⟩ : TimeSeriesValue), ⟨3, 1, 0⟩]], SortedRunOk r) ∧
    ¬ (∀ r ∈ (kway_merge_dir (fun a b => tsv_le b a) true
          (fun (n : Nat) _ => (n + 1, false))
          [[(⟨1, 1, 0⟩ : TimeSeriesValue), ⟨3, 1, 0⟩]] 0).2,
        SortedRunOk r) := by decide

/-- C6 (amended): for the `AKU_CURSOR_DIR_FORWARD` instantiation — the
one the merge/flush path uses — for every consumer and every set of
runs each monotonically non-decreasing in time order (S3), every run
in the `runs` array rebuilt by `kway_merge` — in particular the array
rebuilt from the remaining heap contents when the consumer interrupts
the merge — is again monotonically non-decreasing in time order.  The
backward instantiation does not preserve S3 (see the
counterexample). -/
theorem C6_kway_merge_interrupt_sorted {S : Type}
    (cons : S → TimeSeriesValue → S × Bool) (runs : List (List TimeSeriesValue)) (st : S)
    (hruns : ∀ r ∈ runs, SortedRunOk r) :
    ∀ r ∈ (kway_merge tsv_le cons runs st).2, SortedRunOk r := by
  intro r hr
  rw [SortedRunOk_iff]
  refine kwayLoop_sorted tsv_le cons (fun a b => tsv_le a b = true) _
    (initHeap 0 runs) (runs.map (List.drop 1)) st ?_ ?_ ?_ r hr
  · intro r2 hr2
    rcases List.mem_map.mp hr2 with ⟨r0, hr0, rfl⟩
    exact ((SortedRunOk_iff r0).mp (hruns r0 hr0)).drop 1
  · intro p hp
    obtain ⟨r0, hr0, hhead, hdrop⟩ := initHeap_head runs 0 p hp
    have hr0s := hruns r0 hr0
    simp only [Nat.sub_zero] at hdrop
    rw [hdrop]
    cases r0 with
    | nil => cases hhead
    | cons a tl =>
      simp only [List.head?_cons, Option.some.injEq] at hhead
      subst hhead
      simpa using (SortedRunOk_iff _).mp hr0s
  · exact initHeap_snd_nodup runs 0

/-- Witness for C6: a consumer that interrupts immediately leaves both
replacement runs (head plus surviving suffix) sorted. -/
theorem C6_kway_merge_interrupt_sorted_witness :
    (∀ r ∈ [[(⟨1, 1, 0⟩ : TimeSeriesValue), ⟨3, 1, 0⟩], [⟨2, 1, 0⟩, ⟨2, 2, 0⟩]],
       SortedRunOk r) ∧
    ∀ r ∈ (kway_merge tsv_le (fun (n : Nat) _ => (n + 1, false))
        [[(⟨1, 1, 0⟩ : TimeSeriesValue), ⟨3, 1, 0⟩], [⟨2, 1, 0⟩, ⟨2, 2, 0⟩]] 0).2,
      SortedRunOk r :=
  ⟨by decide,
   C6_kway_merge_interrupt_sorted (fun (n : Nat) _ => (n + 1, false))
     [[⟨1, 1, 0⟩, ⟨3, 1, 0⟩], [⟨2, 1, 0⟩, ⟨2, 2, 0⟩]] 0 (by decide)⟩

/-- A full cache holding one 8-byte chunk under a 10-byte budget. -/
def c3w_cache : ChunkCache :=
  { fifo := [((1, 1), 8)], cache := [((1, 1), chunkA)], total_size := 8, size_limit := 10 }

/-- Witness for C3: putting another 8-byte chunk into `c3w_cache` evicts
the single oldest entry and the total stays at 8 bytes. -/
theorem C3_put_witness :
    (c3w_cache.put (2, 2) chunkA).fifo = [((2, 2), 8)] ∧
    (c3w_cache.put (2, 2) chunkA).total_size = 8 :=
  (C3_put_single_eviction c3w_cache (2, 2) chunkA).2.2 (1, 1) 8 (by decide) (by decide)

/-! ### C5: `Sequencer::merge_and_compress` -/

/-- Multiset of samples stored in a list of runs. -/
def runsMass {V : Type} (l : List (List V)) : Multiset V :=
  (l.flatten : List V)

theorem runsMass_nil {V : Type} : runsMass ([] : List (List V)) = 0 := rfl

theorem runsMass_cons {V : Type} (r : List V) (l : List (List V)) :
    runsMass (r :: l) = (r : Multiset V) + runsMass l := by
  simp only [runsMass, List.flatten_cons, ← Multiset.coe_add]

theorem runsMass_append {V : Type} (l1 l2 : List (List V)) :
    runsMass (l1 ++ l2) = runsMass l1 + runsMass l2 := by
  simp only [runsMass, List.flatten_append, ← Multiset.coe_add]

theorem runsMass_perm {V : Type} {l1 l2 : List (List V)} (h : List.Perm l1 l2) :
    runsMass l1 = runsMass l2 :=
  Multiset.coe_eq_coe.2 h.join

/-- The empty `UncompressedChunk` built at the top of each loop
iteration of `merge_and_compress`. -/
def emptyChunk : UncompressedChunk := ⟨[], [], []⟩

/-- `TimeSeriesValue::add_to_header`: push the fields onto the three
parallel vectors. -/
def TimeSeriesValue.add_to_header (v : TimeSeriesValue) (c : UncompressedChunk) :
    UncompressedChunk :=
  ⟨c.timestamps ++ [v.key_ts], c.paramids ++ [v.key_id], c.values ++ [v.value]⟩

/-- The sample list held by a chunk header: `TimeSeriesValue(timestamps.at(i),
paramids.at(i), values.at(i))` for each index, as in the residue-rebuild
loop of `merge_and_compress`. -/
def chunkValues (c : UncompressedChunk) : List TimeSeriesValue :=
  (c.timestamps.zip (c.paramids.zip c.values)).map (fun p => ⟨p.1, p.2.1, p.2.2⟩)

/-- The sample multiset held by a chunk header. -/
def chunkMass (c : UncompressedChunk) : Multiset TimeSeriesValue :=
  (chunkValues c : Multiset TimeSeriesValue)

/-- The three parallel vectors of a chunk header have equal lengths. -/
def chunkWf (c : UncompressedChunk) : Prop :=
  c.timestamps.length = c.paramids.length ∧ c.paramids.length = c.values.length

theorem chunkWf_empty : chunkWf emptyChunk := ⟨rfl, rfl⟩

theorem chunkWf_add (v : TimeSeriesValue) (c : UncompressedChunk) (h : chunkWf c) :
    chunkWf (v.add_to_header c) := by
  obtain ⟨h1, h2⟩ := h
  constructor <;> simp [TimeSeriesValue.add_to_header, h1, h2]

theorem chunkValues_add (v : TimeSeriesValue) (c : UncompressedChunk) (h : chunkWf c) :
    chunkValues (v.add_to_header c) = chunkValues c ++ [v] := by
  obtain ⟨h1, h2⟩ := h
  unfold chunkValues TimeSeriesValue.add_to_header
  rw [List.zip_append h2]
  rw [List.zip_append (by simp [List.length_zip, h1, h2])]
  simp

/-- The `push_to_header` lambda from `merge_and_compress`: consumer
state is `(threshold, chunk_header)`; accepts while the threshold is
positive.  (The source decrements the dead counter once more on the
refusing call; the refusing call leaves the chunk unchanged either
way.) -/
def push_to_header (st : Nat × UncompressedChunk) (v : TimeSeriesValue) :
    (Nat × UncompressedChunk) × Bool :=
  if 0 < st.1 then ((st.1 - 1, v.add_to_header st.2), true) else (st, false)

/-- Stable insertion keeping earlier elements with the same `paramid`
in front. -/
def sortedInsertByParam (v : TimeSeriesValue) : List TimeSeriesValue → List TimeSeriesValue
  | [] => [v]
  | w :: t => if w.key_id ≤ v.key_id then w :: sortedInsertByParam v t else v :: w :: t

/-- Stable sort by `paramid` (insertion sort). -/
def stableSortByParam : List TimeSeriesValue → List TimeSeriesValue
  | [] => []
  | v :: t => sortedInsertByParam v (stableSortByParam t)

/-- Rebuild a chunk header from a sample list. -/
def listToChunk (l : List TimeSeriesValue) : UncompressedChunk :=
  ⟨l.map (·.key_ts), l.map (·.key_id), l.map (·.value)⟩

/-- Modelled from the spec: `CompressionUtil::convert_from_time_order`
(implementation not in the excerpt) groups entries by `paramid`,
preserving time order within each group, and is length- and
value-preserving; a stable sort of the time-ordered rows by `paramid`.
The source calls `AKU_PANIC` when it reports failure, hence the
`Option`. -/
def convert_from_time_order (c : UncompressedChunk) : Option UncompressedChunk :=
  some (listToChunk (stableSortByParam (chunkValues c)))

theorem sortedInsertByParam_perm (v : TimeSeriesValue) :
    ∀ l, List.Perm (sortedInsertByParam v l) (v :: l) := by
  intro l
  induction l with
  | nil => exact List.Perm.refl _
  | cons w t ih =>
    rw [sortedInsertByParam]
    by_cases h : w.key_id ≤ v.key_id
    · rw [if_pos h]
      exact (ih.cons w).trans (List.Perm.swap v w t)
    · rw [if_neg h]

theorem stableSortByParam_perm :
    ∀ l, List.Perm (stableSortByParam l) l := by
  intro l
  induction l with
  | nil => exact List.Perm.refl _
  | cons v t ih =>
    rw [stableSortByParam]
    exact (sortedInsertByParam_perm v _).trans (ih.cons v)

theorem chunkValues_listToChunk (l : List TimeSeriesValue) :
    chunkValues (listToChunk l) = l := by
  unfold chunkValues listToChunk
  rw [List.zip_map', List.zip_map', List.map_map]
  exact (List.map_congr_left fun a _ => rfl).trans (List.map_id l)

theorem chunkMass_convert (c : UncompressedChunk) (out : UncompressedChunk)
    (h : convert_from_time_order c = some out) : chunkMass out = chunkMass c := by
  unfold convert_from_time_order at h
  obtain rfl := Option.some.injEq _ _ ▸ h.symm
  unfold chunkMass
  rw [chunkValues_listToChunk]
  exact Multiset.coe_eq_coe.2 (stableSortByParam_perm _)

theorem getD_set_ne {V : Type} (ranges : List (List V)) (ix j : Nat) (tl : List V)
    (hne : j ≠ ix) : (ranges.set ix tl).getD j [] = ranges.getD j [] := by
  by_cases hlt : j < ranges.length
  · rw [List.getD_eq_getElem _ _ (by simpa using hlt), List.getD_eq_getElem _ _ hlt]
    exact List.getElem_set_ne (Ne.symm hne) _
  · rw [List.getD_eq_default _ _ (by simpa using Nat.le_of_not_lt hlt),
        List.getD_eq_default _ _ (Nat.le_of_not_lt hlt)]

/-- The merge loop neither creates nor loses samples: consumed mass
(measured by `μ` on the consumer state) plus the rebuilt-run mass
equals the incoming heap-plus-ranges mass. -/
theorem kwayLoop_mass {V S : Type} (le : V → V → Bool) (cons : S → V → S × Bool)
    (μ : S → Multiset V) (I : S → Prop)
    (hIstep : ∀ st v, I st → I (cons st v).1)
    (htrue : ∀ st v, I st → (cons st v).2 = true → μ (cons st v).1 = μ st + {v})
    (hfalse : ∀ st v, I st → (cons st v).2 = false → μ (cons st v).1 = μ st) :
    ∀ (fuel : Nat) (heap : List (V × Nat)) (ranges : List (List V)) (st : S),
      I st →
      (heap.map (fun p => (ranges.getD p.2 []).length)).sum + heap.length < fuel →
      ((heap.map Prod.snd).Nodup) →
      μ (kwayLoop le cons fuel heap ranges st).1
          + runsMass ((kwayLoop le cons fuel heap ranges st).2)
        = μ st + runsMass (heap.map (fun p => p.1 :: ranges.getD p.2 [])) := by
  intro fuel
  induction fuel with
  | zero => intro heap ranges st _ hfuel _; omega
  | succ fuel ih =>
    intro heap ranges st hI hfuel hnodup
    rw [kwayLoop]
    cases hp : heapPop le heap with
    | none =>
      cases heap with
      | nil => simp [runsMass]
      | cons x xs =>
        exfalso
        have hs := heapPop_cons_isSome le x xs
        rw [hp] at hs
        simp at hs
    | some pr =>
      obtain ⟨⟨v, ix⟩, rest⟩ := pr
      have hperm := heapPop_perm le heap (v, ix) rest hp
      have hrest_mem : ∀ p, p ∈ rest → p ∈ heap := by
        intro p hmem
        exact hperm.symm.subset (List.mem_cons_of_mem _ hmem)
      have hsnd_perm : List.Perm (heap.map Prod.snd) (ix :: rest.map Prod.snd) := by
        simpa using hperm.map Prod.snd
      have hnodup' : (ix :: rest.map Prod.snd).Nodup := hsnd_perm.nodup_iff.mp hnodup
      have hix_notin : ix ∉ rest.map Prod.snd := (List.nodup_cons.mp hnodup').1
      have hrest_nodup : (rest.map Prod.snd).Nodup := (List.nodup_cons.mp hnodup').2
      have hlen : heap.length = rest.length + 1 := (heapPop_length le heap _ _ hp).symm
      have hmap_perm :
          List.Perm (heap.map (fun p : V × Nat => p.1 :: ranges.getD p.2 []))
            (((v, ix) :: rest).map (fun p : V × Nat => p.1 :: ranges.getD p.2 [])) :=
        hperm.map _
      have hmass_split :
          runsMass (heap.map (fun p : V × Nat => p.1 :: ranges.getD p.2 []))
            = ((v :: ranges.getD ix []) : Multiset V)
              + runsMass (rest.map (fun p : V × Nat => p.1 :: ranges.getD p.2 [])) := by
        rw [runsMass_perm hmap_perm, List.map_cons, runsMass_cons]
      have hsum_perm :
          ((heap.map (fun p : V × Nat => (ranges.getD p.2 []).length))).sum
            = (ranges.getD ix []).length
              + ((rest.map (fun p : V × Nat => (ranges.getD p.2 []).length))).sum := by
        have := (hperm.map (fun p : V × Nat => (ranges.getD p.2 []).length)).sum_eq
        simpa using this
      dsimp only
      cases hc : (cons st v).2 with
      | true =>
        simp only [if_true]
        have hμ : μ (cons st v).1 = μ st + {v} := htrue st v hI hc
        have hI1 : I (cons st v).1 := hIstep st v hI
        cases hrange : ranges.getD ix [] with
        | nil =>
          have hrec := ih rest ranges (cons st v).1 hI1
            (by
              have h0 : (ranges.getD ix []).length = 0 := by rw [hrange]; rfl
              omega)
            hrest_nodup
          dsimp only
          rw [hrec, hmass_split, hrange, hμ]
          have hsing : ((v :: ([] : List V)) : Multiset V) = {v} := rfl
          rw [hsing]
          abel
        | cons w tl =>
          have hixlt : ix < ranges.length := by
            by_contra hge
            rw [List.getD_eq_default _ _ (by omega)] at hrange
            cases hrange
          have hset_ix : (ranges.set ix tl).getD ix [] = tl := by
            rw [List.getD_eq_getElem _ _ (by simpa using hixlt)]
            simp [List.getElem_set_self]
          have hmap_eq :
              rest.map (fun p : V × Nat => p.1 :: (ranges.set ix tl).getD p.2 [])
                = rest.map (fun p : V × Nat => p.1 :: ranges.getD p.2 []) := by
            apply List.map_congr_left
            intro p hpr
            have hne : p.2 ≠ ix := by
              intro hcon
              exact hix_notin (by
                rw [← hcon]
                exact List.mem_map_of_mem Prod.snd hpr)
            rw [getD_set_ne _ _ _ _ hne]
          have hsum_eq :
              (rest.map (fun p : V × Nat => ((ranges.set ix tl).getD p.2 []).length)).sum
                = (rest.map (fun p : V × Nat => (ranges.getD p.2 []).length)).sum := by
            congr 1
            apply List.map_congr_left
            intro p hpr
            have hne : p.2 ≠ ix := by
              intro hcon
              exact hix_notin (by
                rw [← hcon]
                exact List.mem_map_of_mem Prod.snd hpr)
            rw [getD_set_ne _ _ _ _ hne]
          have hrec := ih ((w, ix) :: rest) (ranges.set ix tl) (cons st v).1 hI1
            (by
              simp only [List.map_cons, List.sum_cons, List.length_cons]
              rw [hset_ix, hsum_eq]
              rw [hrange] at hsum_perm
              simp only [List.length_cons] at hsum_perm
              omega)
            (by
              simp only [List.map_cons, List.nodup_cons]
              exact ⟨hix_notin, hrest_nodup⟩)
          dsimp only
          rw [hrec, hμ, hmass_split, hrange]
          simp only [List.map_cons, runsMass_cons, hset_ix, hmap_eq]
          have h1 : ((v :: w :: tl : List V) : Multiset V) = {v} + ((w :: tl : List V) : Multiset V) := by
            rw [← Multiset.cons_coe, ← Multiset.singleton_add]
          rw [h1]
          abel
      | false =>
        simp only [Bool.false_eq_true, if_false]
        rw [hfalse st v hI hc]

/-- Mass of the initial heap fronts plus their ranges equals the mass
of the runs, provided the ranges are the runs with their fronts
dropped. -/
theorem initHeap_mass {V : Type} :
    ∀ (runs : List (List V)) (k : Nat) (ranges : List (List V)),
      (∀ i, ranges.getD (k + i) [] = (runs.getD i []).drop 1) →
      runsMass ((initHeap k runs).map (fun p => p.1 :: ranges.getD p.2 []))
        = runsMass runs := by
  intro runs
  induction runs with
  | nil => intro k ranges _; rfl
  | cons r rs ih =>
    intro k ranges hal
    have hal' : ∀ i, ranges.getD (k + 1 + i) [] = (rs.getD i []).drop 1 := by
      intro i
      have h2 := hal (i + 1)
      rw [show k + (i + 1) = k + 1 + i by omega] at h2
      simpa using h2
    rw [initHeap]
    cases hh : r.head? with
    | none =>
      have hr : r = [] := List.head?_eq_none_iff.mp hh
      subst hr
      rw [ih (k + 1) ranges hal', runsMass_cons]
      simp
    | some v =>
      cases r with
      | nil => cases hh
      | cons a tl =>
        simp only [List.head?_cons, Option.some.injEq] at hh
        subst hh
        rw [List.map_cons, runsMass_cons, runsMass_cons]
        have h0 := hal 0
        simp only [Nat.add_zero, List.getD_cons_zero] at h0
        simp only [h0, List.drop_one, List.tail_cons]
        rw [ih (k + 1) ranges hal']

/-- The fuel passed by `kway_merge` dominates the loop measure. -/
theorem initHeap_fuel {V : Type} :
    ∀ (runs : List (List V)) (k : Nat) (ranges : List (List V)),
      (∀ i, ranges.getD (k + i) [] = (runs.getD i []).drop 1) →
      ((initHeap k runs).map (fun p => (ranges.getD p.2 []).length)).sum
        ≤ (runs.map (fun r => (r.drop 1).length)).sum := by
  intro runs
  induction runs with
  | nil => intro k ranges _; simp [initHeap]
  | cons r rs ih =>
    intro k ranges hal
    have hal' : ∀ i, ranges.getD (k + 1 + i) [] = (rs.getD i []).drop 1 := by
      intro i
      have h2 := hal (i + 1)
      rw [show k + (i + 1) = k + 1 + i by omega] at h2
      simpa using h2
    rw [initHeap]
    cases hh : r.head? with
    | none =>
      have := ih (k + 1) ranges hal'
      simp only [List.map_cons, List.sum_cons]
      omega
    | some v =>
      have h0 := hal 0
      simp only [Nat.add_zero, List.getD_cons_zero] at h0
      simp only [List.map_cons, List.sum_cons, h0]
      have := ih (k + 1) ranges hal'
      omega

theorem initHeap_length {V : Type} :
    ∀ (runs : List (List V)) (k : Nat), (initHeap k runs).length ≤ runs.length := by
  intro runs
  induction runs with
  | nil => intro k; simp [initHeap]
  | cons r rs ih =>
    intro k
    rw [initHeap]
    cases r.head? with
    | none =>
      have := ih (k + 1)
      simp only [List.length_cons]
      omega
    | some v =>
      have := ih (k + 1)
      simp only [List.length_cons]
      omega

theorem ranges_align {V : Type} (runs : List (List V)) :
    ∀ i, (runs.map (List.drop 1)).getD (0 + i) [] = (runs.getD i []).drop 1 := by
  intro i
  rw [Nat.zero_add]
  by_cases hlt : i < runs.length
  · rw [List.getD_eq_getElem _ _ (by simpa using hlt), List.getD_eq_getElem _ _ hlt]
    simp
  · rw [List.getD_eq_default _ _ (by simpa using Nat.le_of_not_lt hlt),
        List.getD_eq_default _ _ (Nat.le_of_not_lt hlt)]
    rfl

/-- `kway_merge` with the `push_to_header` consumer: the samples moved
into the chunk header plus the samples in the rebuilt runs are exactly
the samples of the input runs. -/
theorem kway_merge_mass (C : Nat) (ready : List (List TimeSeriesValue)) :
    chunkMass (kway_merge tsv_le push_to_header ready (C, emptyChunk)).1.2
        + runsMass (kway_merge tsv_le push_to_header ready (C, emptyChunk)).2
      = runsMass ready := by
  unfold kway_merge
  have hmain := kwayLoop_mass tsv_le push_to_header
    (fun st => (chunkValues st.2 : Multiset TimeSeriesValue))
    (fun st => chunkWf st.2)
    (by
      intro st v hI
      unfold push_to_header
      by_cases h : 0 < st.1
      · rw [if_pos h]
        exact chunkWf_add v st.2 hI
      · rw [if_neg h]
        exact hI)
    (by
      intro st v hI hc
      unfold push_to_header at hc ⊢
      by_cases h : 0 < st.1
      · rw [if_pos h]
        simp only [if_pos h]
        rw [chunkValues_add v st.2 hI]
        simp [← Multiset.coe_add]
      · rw [if_neg h] at hc
        simp at hc)
    (by
      intro st v hI hc
      unfold push_to_header at hc ⊢
      by_cases h : 0 < st.1
      · rw [if_pos h] at hc
        simp at hc
      · rw [if_neg h])
    ((initHeap 0 ready).length + ((ready.map (List.drop 1)).map List.length).sum + 1)
    (initHeap 0 ready) (ready.map (List.drop 1)) (C, emptyChunk)
    chunkWf_empty
    (by
      have h1 := initHeap_fuel ready 0 (ready.map (List.drop 1)) (ranges_align ready)
      have h2 : ((ready.map (List.drop 1)).map List.length).sum
          = (ready.map (fun r => (r.drop 1).length)).sum := by
        rw [List.map_map]
        rfl
      omega)
    (initHeap_snd_nodup ready 0)
  rw [initHeap_mass ready 0 (ready.map (List.drop 1)) (ranges_align ready)] at hmain
  simpa [chunkMass, emptyChunk, chunkValues] using hmain

/-- The `while(!ready_.empty())` loop of `merge_and_compress`, with the
`status` variable threaded explicitly.  The fuel only makes the
recursion structural; `merge_and_compress` passes total sample count
plus two, which is exhausted (`none`) only when the source loop itself
keeps cycling without consuming anything (`c_threshold == 0` with a
page that keeps accepting empty chunks). -/
def macLoop {P : Type} (complete_chunk : P → UncompressedChunk → aku_Status × P)
    (C : Nat) (enforce_write : Bool) :
    Nat → aku_Status → List (List TimeSeriesValue) → P →
    Option (aku_Status × List (List TimeSeriesValue) × P)
  | 0, _, _, _ => none
  | fuel + 1, status, ready, target =>
    if ready.isEmpty then some (status, ready, target)
    else
      let res := kway_merge tsv_le push_to_header ready (C, emptyChunk)
      let chunk := res.1.2
      let ready1 := res.2
      if enforce_write = true ∨ C ≤ chunk.paramids.length then
        match convert_from_time_order chunk with
        | none => none
        | some reindexed =>
          let cr := complete_chunk target reindexed
          if cr.1 = aku_Status.SUCCESS then
            macLoop complete_chunk C enforce_write fuel cr.1 ready1 cr.2
          else
            some (if cr.1 = aku_Status.ENO_DATA then aku_Status.SUCCESS else cr.1,
                  ready1 ++ [chunkValues chunk], cr.2)
      else
        some (aku_Status.SUCCESS, ready1 ++ [chunkValues chunk], target)

/-- `Sequencer::merge_and_compress`.  The target page is abstract: any
state type `P` with a `complete_chunk` operation.  `none` models the
`AKU_PANIC` inside the loop and loop divergence. -/
def Sequencer.merge_and_compress {P : Type}
    (complete_chunk : P → UncompressedChunk → aku_Status × P)
    (s : Sequencer) (target : P) (enforce_write : Bool) :
    Option (aku_Status × Sequencer × P) :=
  if s.sequence_number % 2 = 0 then
    some (aku_Status.EBUSY, s, target)
  else if s.ready.isEmpty then
    some (aku_Status.ENO_DATA, s, target)
  else
    match macLoop complete_chunk s.c_threshold enforce_write
        ((s.ready.map List.length).sum + 2) aku_Status.SUCCESS s.ready target with
    | none => none
    | some (status, ready2, target2) =>
      some (status,
        { s with
          runs := if ready2.isEmpty then s.runs else s.runs ++ ready2
          ready := []
          sequence_number := s.sequence_number + 1 },
        target2)

/-- A page-state wrapper that also accumulates the multiset of samples
of every chunk the page accepted (`SUCCESS`); used to state that
`merge_and_compress` loses no sample. -/
def instrumentCC {P : Type} (cc : P → UncompressedChunk → aku_Status × P) :
    P × Multiset TimeSeriesValue → UncompressedChunk →
      aku_Status × (P × Multiset TimeSeriesValue) :=
  fun pt c =>
    ((cc pt.1 c).1,
     ((cc pt.1 c).2,
      if (cc pt.1 c).1 = aku_Status.SUCCESS then pt.2 + chunkMass c else pt.2))

/-- Loop-level accounting: sequencer-side mass plus page-accepted mass
is invariant, and a non-`SUCCESS` exit always has the residue pushed
back as the final run. -/
theorem macLoop_mass {P : Type} (cc : P → UncompressedChunk → aku_Status × P)
    (C : Nat) (e : Bool) :
    ∀ (fuel : Nat) (ready : List (List TimeSeriesValue)) (t : P)
      (fl : Multiset TimeSeriesValue) (st : aku_Status)
      (ready2 : List (List TimeSeriesValue)) (t2 : P) (fl2 : Multiset TimeSeriesValue),
      macLoop (instrumentCC cc) C e fuel aku_Status.SUCCESS ready (t, fl)
          = some (st, ready2, (t2, fl2)) →
      runsMass ready2 + fl2 = runsMass ready + fl ∧
      (st ≠ aku_Status.SUCCESS → ∃ rs run, ready2 = rs ++ [run]) := by
  intro fuel
  induction fuel with
  | zero => intro ready t fl st ready2 t2 fl2 hm; cases hm
  | succ fuel ih =>
    intro ready t fl st ready2 t2 fl2 hm
    rw [macLoop] at hm
    by_cases hre : ready.isEmpty
    · rw [if_pos hre] at hm
      simp only [Option.some.injEq, Prod.mk.injEq] at hm
      obtain ⟨rfl, rfl, rfl, rfl⟩ := hm
      exact ⟨rfl, fun hne => absurd rfl hne⟩
    · rw [if_neg hre] at hm
      simp only at hm
      have hkm := kway_merge_mass C ready
      by_cases hbig : e = true ∨ C ≤ (kway_merge tsv_le push_to_header ready (C, emptyChunk)).1.2.paramids.length
      · rw [if_pos hbig] at hm
        rw [show convert_from_time_order
              (kway_merge tsv_le push_to_header ready (C, emptyChunk)).1.2
            = some (listToChunk (stableSortByParam (chunkValues
                (kway_merge tsv_le push_to_header ready (C, emptyChunk)).1.2))) from rfl] at hm
        simp only at hm
        have hcm : chunkMass (listToChunk (stableSortByParam (chunkValues
              (kway_merge tsv_le push_to_header ready (C, emptyChunk)).1.2)))
            = chunkMass (kway_merge tsv_le push_to_header ready (C, emptyChunk)).1.2 :=
          chunkMass_convert _ _ rfl
        by_cases hsucc : (instrumentCC cc (t, fl) (listToChunk (stableSortByParam (chunkValues
            (kway_merge tsv_le push_to_header ready (C, emptyChunk)).1.2)))).1
              = aku_Status.SUCCESS
        · rw [if_pos hsucc] at hm
          rw [hsucc] at hm
          have hflacc : (instrumentCC cc (t, fl) (listToChunk (stableSortByParam (chunkValues
              (kway_merge tsv_le push_to_header ready (C, emptyChunk)).1.2)))).2.2
                = fl + chunkMass (kway_merge tsv_le push_to_header ready (C, emptyChunk)).1.2 := by
            unfold instrumentCC at hsucc ⊢
            simp only at hsucc ⊢
            rw [if_pos hsucc, hcm]
          rw [show ((instrumentCC cc (t, fl) (listToChunk (stableSortByParam (chunkValues
              (kway_merge tsv_le push_to_header ready (C, emptyChunk)).1.2)))).2 : P × Multiset TimeSeriesValue)
            = ((instrumentCC cc (t, fl) (listToChunk (stableSortByParam (chunkValues
              (kway_merge tsv_le push_to_header ready (C, emptyChunk)).1.2)))).2.1,
               (instrumentCC cc (t, fl) (listToChunk (stableSortByParam (chunkValues
              (kway_merge tsv_le push_to_header ready (C, emptyChunk)).1.2)))).2.2) from rfl] at hm
          rw [hflacc] at hm
          have hrec := ih _ _ _ _ _ _ _ hm
          refine ⟨?_, hrec.2⟩
          rw [hrec.1, ← hkm]
          abel
        · rw [if_neg hsucc] at hm
          simp only [Option.some.injEq, Prod.mk.injEq] at hm
          obtain ⟨hst, hready2, h3⟩ := hm
          have hfl2 : fl2 = fl := by
            have h4 := congrArg Prod.snd h3
            simp only at h4
            rw [← h4]
            unfold instrumentCC at hsucc ⊢
            simp only at hsucc ⊢
            rw [if_neg hsucc]
          subst hready2
          subst hfl2
          constructor
          · rw [runsMass_append, ← hkm]
            have hsing : runsMass [chunkValues
                (kway_merge tsv_le push_to_header ready (C, emptyChunk)).1.2]
              = chunkMass (kway_merge tsv_le push_to_header ready (C, emptyChunk)).1.2 := by
              rw [runsMass_cons, runsMass_nil]
              unfold chunkMass
              rw [add_zero]
            rw [hsing]
            abel
          · intro _
            exact ⟨_, _, rfl⟩
      · rw [if_neg hbig] at hm
        simp only [Option.some.injEq, Prod.mk.injEq] at hm
        obtain ⟨hst, hready2, ht2, hfl2⟩ := hm
        subst hready2
        subst hfl2
        constructor
        · rw [runsMass_append, ← hkm]
          have hsing : runsMass [chunkValues
              (kway_merge tsv_le push_to_header ready (C, emptyChunk)).1.2]
            = chunkMass (kway_merge tsv_le push_to_header ready (C, emptyChunk)).1.2 := by
            rw [runsMass_cons, runsMass_nil]
            unfold chunkMass
            rw [add_zero]
          rw [hsing]
          abel
        · intro hne
          exact absurd hst.symm hne

/-- C5: `merge_and_compress` called with an even generation returns
`EBUSY` without modifying the sequencer or the page; whenever it
returns (in particular when the target page overflows and it returns
`EOVERFLOW`) no accepted sample is lost — the samples remaining in the
sequencer plus the samples accepted by the page (`fl`) are exactly the
samples that were present — and on `EOVERFLOW` the unflushed residue is
pushed back as a fresh (final) run; on `SUCCESS` the generation is
toggled from odd to even. -/
theorem C5_merge_and_compress {P : Type}
    (cc : P → UncompressedChunk → aku_Status × P)
    (s : Sequencer) (t : P) (e : Bool) :
    (s.sequence_number % 2 = 0 →
       Sequencer.merge_and_compress cc s t e = some (aku_Status.EBUSY, s, t)) ∧
    (∀ (st : aku_Status) (s2 : Sequencer) (t2 : P) (fl : Multiset TimeSeriesValue),
       s.sequence_number % 2 = 1 →
       Sequencer.merge_and_compress (instrumentCC cc) s (t, 0) e = some (st, s2, (t2, fl)) →
       (runsMultiset s2 + readyMultiset s2 + fl = runsMultiset s + readyMultiset s) ∧
       (st = aku_Status.EOVERFLOW →
          s2.ready = [] ∧ ∃ rs run, s2.runs = s.runs ++ rs ++ [run]) ∧
       (st = aku_Status.SUCCESS →
          s2.sequence_number = s.sequence_number + 1 ∧ s2.sequence_number % 2 = 0)) := by
  constructor
  · intro h0
    unfold Sequencer.merge_and_compress
    rw [if_pos h0]
  · intro st s2 t2 fl hodd hm
    unfold Sequencer.merge_and_compress at hm
    rw [if_neg (by omega)] at hm
    by_cases hre : s.ready.isEmpty
    · rw [if_pos hre] at hm
      simp only [Option.some.injEq, Prod.mk.injEq] at hm
      obtain ⟨hst, hs2, ht2, hfl⟩ := hm
      subst hst
      subst hs2
      subst hfl
      refine ⟨by rw [add_zero], ?_, ?_⟩
      · intro hov; cases hov
      · intro hsu; cases hsu
    · rw [if_neg hre] at hm
      cases hl : macLoop (instrumentCC cc) s.c_threshold e
          ((s.ready.map List.length).sum + 2) aku_Status.SUCCESS s.ready (t, 0) with
      | none => rw [hl] at hm; cases hm
      | some out =>
        obtain ⟨st', ready2, t2', fl'⟩ := out
        rw [hl] at hm
        dsimp only at hm
        simp only [Option.some.injEq, Prod.mk.injEq] at hm
        obtain ⟨hst, hs2, ht2, hfl⟩ := hm
        subst hst
        subst hfl
        have hmass := macLoop_mass cc s.c_threshold e _ _ _ _ _ _ _ _ hl
        refine ⟨?_, ?_, ?_⟩
        · rw [← hs2]
          show runsMass (if ready2.isEmpty then s.runs else s.runs ++ ready2) + runsMass [] + fl'
            = runsMass s.runs + runsMass s.ready
          have h1 := hmass.1
          rw [add_zero] at h1
          by_cases hr2 : ready2.isEmpty
          · rw [if_pos hr2]
            have hnil : ready2 = [] := List.isEmpty_iff.mp hr2
            rw [hnil, runsMass_nil, zero_add] at h1
            rw [runsMass_nil, add_zero, h1]
          · rw [if_neg hr2, runsMass_append, runsMass_nil, add_zero, ← h1]
            abel
        · intro hov
          obtain ⟨rs, run, hready2⟩ := hmass.2 (by rw [hov]; intro hq; cases hq)
          subst hready2
          refine ⟨by rw [← hs2], rs, run, ?_⟩
          rw [← hs2]
          show (if (rs ++ [run]).isEmpty then s.runs else s.runs ++ (rs ++ [run]))
            = s.runs ++ rs ++ [run]
          rw [if_neg (by simp), List.append_assoc]
        · intro _
          refine ⟨by rw [← hs2], ?_⟩
          rw [← hs2]
          show (s.sequence_number + 1) % 2 = 0
          omega

/-- A one-sample sequencer in an odd generation, ready to flush. -/
def c5w_state : Sequencer :=
  { window_size := 10, top_timestamp := 20, checkpoint := 2, sequence_number := 1,
    runs := [], ready := [[⟨5, 1, 7⟩]], c_threshold := 1 }

/-- A page model that rejects every chunk with `EOVERFLOW` (counting
the attempts). -/
def c5w_cc : Nat → UncompressedChunk → aku_Status × Nat :=
  fun p _ => (aku_Status.EOVERFLOW, p + 1)

/-- The sequencer after the overflowing `merge_and_compress`: the
sample is back as a fresh run, the generation is even. -/
def c5w_s2 : Sequencer :=
  { window_size := 10, top_timestamp := 20, checkpoint := 2, sequence_number := 2,
    runs := [[⟨5, 1, 7⟩]], ready := [], c_threshold := 1 }

/-- Witness for C5: an even generation gets `EBUSY` unchanged, and on a
page that overflows, the odd-generation call returns `EOVERFLOW`, keeps
the sample as a fresh run, loses nothing, and leaves an even
generation. -/
theorem C5_merge_and_compress_witness :
    (Sequencer.merge_and_compress c5w_cc c5w_s2 0 true
        = some (aku_Status.EBUSY, c5w_s2, 0)) ∧
    c5w_state.sequence_number % 2 = 1 ∧
    Sequencer.merge_and_compress (instrumentCC c5w_cc) c5w_state (0, 0) true
        = some (aku_Status.EOVERFLOW, c5w_s2, (1, 0)) ∧
    (runsMultiset c5w_s2 + readyMultiset c5w_s2 + 0
        = runsMultiset c5w_state + readyMultiset c5w_state) ∧
    c5w_s2.ready = [] ∧ (∃ rs run, c5w_s2.runs = c5w_state.runs ++ rs ++ [run]) :=
  have h2 := (C5_merge_and_compress c5w_cc c5w_state 0 true).2
    aku_Status.EOVERFLOW c5w_s2 1 0 (by decide) (by decide)
  ⟨(C5_merge_and_compress c5w_cc c5w_s2 0 true).1 (by decide),
   by decide, by decide, h2.1, (h2.2.1 rfl).1, (h2.2.1 rfl).2⟩

/-! ### C7 / C10: the `PageHeader` model (`page.cpp`) -/

/-- Modelled from the spec: `AKU_HISTOGRAM_SIZE` from the (missing)
`akumuli_def.h`, `0x10000`. -/
def AKU_HISTOGRAM_SIZE : Nat := 0x10000

/-- `sizeof(aku_Entry)`: `param_id:u64, time:u64, length:u32` (packed,
per the spec's entry layout). -/
def sizeof_aku_Entry : Nat := 20

/-- `sizeof(aku_EntryOffset)`: `u32`. -/
def sizeof_aku_EntryOffset : Nat := 4

/-- `sizeof(ChunkDesc)`: `n_elements:u32, begin:u32, end:u32, crc:u32`
(packed). -/
def sizeof_ChunkDesc : Nat := 16

/-- Modelled from the spec: the fixed byte size of the on-page header
(fixed scalar fields plus the `H`-entry histogram); the offset index
starts right after it. -/
def PAGE_HEADER_SIZE : Nat := 76 + 12 * AKU_HISTOGRAM_SIZE

/-- Modelled from the spec: sentinel series id of backward chunk
entries (`~0ull`). -/
def AKU_CHUNK_BWD_ID : Nat := U64 - 1

/-- Modelled from the spec: sentinel series id of forward chunk
entries. -/
def AKU_CHUNK_FWD_ID : Nat := U64 - 2

/-- `PageBoundingBox`. -/
structure PageBoundingBox where
  max_id : Nat
  min_id : Nat
  max_timestamp : Nat
  min_timestamp : Nat
  deriving DecidableEq, Repr

/-- The `PageBoundingBox()` constructor: empty box (`min_id` is the
largest `u32`, `min_timestamp` is `AKU_MAX_TIMESTAMP`). -/
def PageBoundingBox.init : PageBoundingBox :=
  { max_id := 0, min_id := U32 - 1, max_timestamp := 0, min_timestamp := U64 - 1 }

/-- One histogram slot (`PageHistogramEntry`). -/
structure PageHistogramEntry where
  timestamp : Nat
  index : Nat
  deriving DecidableEq, Repr

/-- The header fields of one on-page entry (`aku_Entry` without the
payload bytes, which no claim observes). -/
structure EntryRec where
  param_id : Nat
  time : Nat
  len : Nat
  deriving DecidableEq, Repr

/-- `PageHeader`.  `page_index` holds the offset index `[0, count)`
(the list is the addressable prefix of the on-page array), and
`entries` records the entry headers written into the data region,
newest first (a later write to the same offset shadows the older
bytes, as in memory). -/
structure PageHeader where
  version : Nat
  count : Nat
  last_offset : Nat
  sync_count : Nat
  open_count : Nat
  close_count : Nat
  page_id : Nat
  length : Nat
  checkpoint : Nat
  bbox : PageBoundingBox
  histogram : List PageHistogramEntry
  page_index : List Nat
  entries : List (Nat × EntryRec)
  deriving DecidableEq, Repr

/-- `PageHeader::get_free_space`: bytes between the tail of the offset
index and `last_offset`. -/
def PageHeader.get_free_space (p : PageHeader) : Nat :=
  p.last_offset - (PAGE_HEADER_SIZE + sizeof_aku_EntryOffset * p.count)

/-- `PageHeader::update_bounding_box`. -/
def update_bounding_box (b : PageBoundingBox) (param time : Nat) : PageBoundingBox :=
  { max_id := if param > b.max_id then param else b.max_id
    min_id := if param < b.min_id then param else b.min_id
    max_timestamp := if time > b.max_timestamp then time else b.max_timestamp
    min_timestamp := if time < b.min_timestamp then time else b.min_timestamp }

/-- `PageHeader::read_entry(offset)->time`: the timestamp of the entry
written at the offset (0 if the slot was never written). -/
def PageHeader.read_entry_time (p : PageHeader) (offset : Nat) : Nat :=
  match p.entries.find? (fun e => e.1 == offset) with
  | none => 0
  | some e => e.2.time

/-- `PageHeader::add_entry`. -/
def PageHeader.add_entry (p : PageHeader) (param timestamp range_len : Nat) :
    aku_Status × PageHeader :=
  if range_len = 0 then (aku_Status.EBAD_DATA, p)
  else if sizeof_aku_Entry + range_len + sizeof_aku_EntryOffset > p.get_free_space then
    (aku_Status.EOVERFLOW, p)
  else
    (aku_Status.SUCCESS,
     { p with
       last_offset := p.last_offset - (sizeof_aku_Entry + range_len)
       page_index := p.page_index ++ [p.last_offset - (sizeof_aku_Entry + range_len)]
       entries := (p.last_offset - (sizeof_aku_Entry + range_len),
                   ⟨param, timestamp, range_len⟩) :: p.entries
       count := p.count + 1
       bbox := update_bounding_box p.bbox param timestamp })

/-- `PageHeader::add_chunk` (payload bytes are opaque). -/
def PageHeader.add_chunk (p : PageHeader) (range_len free_space_required : Nat) :
    aku_Status × PageHeader :=
  if p.get_free_space < range_len + free_space_required then (aku_Status.EOVERFLOW, p)
  else (aku_Status.SUCCESS, { p with last_offset := p.last_offset - range_len })

/-- `PageHeader::reuse`.  (`page_index` is reset with `count`: the
on-page array cells stay in memory but stop being addressable.) -/
def PageHeader.reuse (p : PageHeader) : PageHeader :=
  { p with
    sync_count := 0
    checkpoint := 0
    count := 0
    open_count := p.open_count + 1
    last_offset := p.length - 1
    bbox := PageBoundingBox.init
    histogram := []
    page_index := [] }

/-- Modelled from the spec: `gfx::timsort` by `timestamp <` is a
stable ascending sort; insertion sort is its observable behaviour. -/
def histInsert (e : PageHistogramEntry) :
    List PageHistogramEntry → List PageHistogramEntry
  | [] => [e]
  | x :: t => if x.timestamp ≤ e.timestamp then x :: histInsert e t else e :: x :: t

def histSort : List PageHistogramEntry → List PageHistogramEntry
  | [] => []
  | e :: t => histInsert e (histSort t)

/-- `PageHeader::sync_next_index`; `none` models the
`AKU_PANIC("sync_index out of range")`. -/
def PageHeader.sync_next_index (p : PageHeader) (offset rand_val : Nat)
    (sort_histogram : Bool) : Option PageHeader :=
  if sort_histogram = false then
    if p.count ≤ p.sync_count then none
    else
      if p.histogram.length < AKU_HISTOGRAM_SIZE then
        some { p with
               sync_count := p.sync_count + 1
               page_index := p.page_index.set p.sync_count offset
               histogram := p.histogram ++ [⟨p.read_entry_time offset, p.sync_count⟩] }
      else
        if rand_val % (p.sync_count + 1) < p.histogram.length then
          some { p with
                 sync_count := p.sync_count + 1
                 page_index := p.page_index.set p.sync_count offset
                 histogram := p.histogram.set (rand_val % (p.sync_count + 1))
                   ⟨p.read_entry_time offset, p.sync_count⟩ }
        else
          some { p with
                 sync_count := p.sync_count + 1
                 page_index := p.page_index.set p.sync_count offset }
  else
    some { p with histogram := histSort p.histogram }

/-- Modelled from the spec: the four-column `ChunkHeader` handed to
`complete_chunk` (declared in the missing `compression.h`). -/
structure ChunkHeader where
  timestamps : List Nat
  paramids : List Nat
  offsets : List Nat
  lengths : List Nat
  deriving DecidableEq, Repr

/-- `PageHeader::complete_chunk`: encode the four columns, append them
tail-to-head, then write the two sentinel entries, each followed by
`sync_next_index`, and finally re-sort the histogram.  The CRC is not
modelled (no claim observes payload bytes), `rnd1`/`rnd2` are the two
`rand()` draws, and `none` covers the offset-writer divergence, the
`front()/back()` calls on an empty chunk, and the `sync_next_index`
panic.  The returned status is the one left in `status` by the source:
the result of the second (`FWD`) `add_entry`. -/
def PageHeader.complete_chunk (p : PageHeader) (data : ChunkHeader) (rnd1 rnd2 : Nat) :
    Option (aku_Status × PageHeader) :=
  match DeltaRLEWriter_encode data.offsets with
  | none => none
  | some off_bytes =>
    let ts_len := (DeltaRLETS_encode data.timestamps).length
    let id_len := (Base128Id_encode data.paramids).length
    let ln_len := (RLELen_encode data.lengths).length
    let size0 := ts_len + id_len + off_bytes.length + ln_len
    let r1 := p.add_chunk off_bytes.length size0
    if r1.1 ≠ aku_Status.SUCCESS then some (r1.1, r1.2)
    else
      let size1 := sub32 size0 off_bytes.length
      let r2 := r1.2.add_chunk ln_len size1
      if r2.1 ≠ aku_Status.SUCCESS then some (r2.1, r2.2)
      else
        let size2 := sub32 size1 off_bytes.length
        let r3 := r2.2.add_chunk id_len size2
        if r3.1 ≠ aku_Status.SUCCESS then some (r3.1, r3.2)
        else
          let size3 := sub32 size2 id_len
          let r4 := r3.2.add_chunk ts_len size3
          if r4.1 ≠ aku_Status.SUCCESS then some (r4.1, r4.2)
          else
            match data.timestamps.head?, data.timestamps.getLast? with
            | some first_ts, some last_ts =>
              let e1 := r4.2.add_entry AKU_CHUNK_BWD_ID first_ts sizeof_ChunkDesc
              match e1.2.sync_next_index e1.2.last_offset rnd1 false with
              | none => none
              | some q1 =>
                let e2 := q1.add_entry AKU_CHUNK_FWD_ID last_ts sizeof_ChunkDesc
                match e2.2.sync_next_index e2.2.last_offset rnd2 false with
                | none => none
                | some q2 =>
                  match q2.sync_next_index 0 0 true with
                  | none => none
                  | some q3 => some (e2.1, q3)
            | _, _ => none

theorem add_entry_sync_count (p : PageHeader) (a t l : Nat) :
    ((p.add_entry a t l).2).sync_count = p.sync_count := by
  unfold PageHeader.add_entry
  by_cases h0 : l = 0
  · rw [if_pos h0]
  · rw [if_neg h0]
    by_cases h1 : sizeof_aku_Entry + l + sizeof_aku_EntryOffset > p.get_free_space
    · rw [if_pos h1]
    · rw [if_neg h1]

theorem add_entry_success_count (p : PageHeader) (a t l : Nat)
    (h : (p.add_entry a t l).1 = aku_Status.SUCCESS) :
    ((p.add_entry a t l).2).count = p.count + 1 := by
  unfold PageHeader.add_entry at h ⊢
  by_cases h0 : l = 0
  · rw [if_pos h0] at h; cases h
  · rw [if_neg h0] at h ⊢
    by_cases h1 : sizeof_aku_Entry + l + sizeof_aku_EntryOffset > p.get_free_space
    · rw [if_pos h1] at h; cases h
    · rw [if_neg h1]

theorem add_entry_fail_eq (p : PageHeader) (a t l : Nat)
    (h : (p.add_entry a t l).1 ≠ aku_Status.SUCCESS) :
    (p.add_entry a t l).2 = p := by
  unfold PageHeader.add_entry at h ⊢
  by_cases h0 : l = 0
  · rw [if_pos h0]
  · rw [if_neg h0] at h ⊢
    by_cases h1 : sizeof_aku_Entry + l + sizeof_aku_EntryOffset > p.get_free_space
    · rw [if_pos h1]
    · rw [if_neg h1] at h
      exact absurd rfl h

theorem add_entry_count_ge (p : PageHeader) (a t l : Nat) :
    p.count ≤ ((p.add_entry a t l).2).count := by
  by_cases h : (p.add_entry a t l).1 = aku_Status.SUCCESS
  · rw [add_entry_success_count p a t l h]
    omega
  · rw [add_entry_fail_eq p a t l h]

theorem add_chunk_counts (p : PageHeader) (l f : Nat) :
    ((p.add_chunk l f).2).count = p.count ∧ ((p.add_chunk l f).2).sync_count = p.sync_count := by
  unfold PageHeader.add_chunk
  by_cases h : p.get_free_space < l + f
  · rw [if_pos h]; exact ⟨rfl, rfl⟩
  · rw [if_neg h]; exact ⟨rfl, rfl⟩

theorem sync_next_index_none (p : PageHeader) (o r : Nat)
    (h : p.count ≤ p.sync_count) : p.sync_next_index o r false = none := by
  unfold PageHeader.sync_next_index
  rw [if_pos rfl, if_pos h]

theorem sync_next_index_some_counts (p : PageHeader) (o r : Nat) (q : PageHeader)
    (h : p.sync_next_index o r false = some q) :
    p.sync_count < p.count ∧ q.count = p.count ∧ q.sync_count = p.sync_count + 1 := by
  unfold PageHeader.sync_next_index at h
  rw [if_pos rfl] at h
  by_cases hc : p.count ≤ p.sync_count
  · rw [if_pos hc] at h; cases h
  · rw [if_neg hc] at h
    refine ⟨by omega, ?_⟩
    by_cases h1 : p.histogram.length < AKU_HISTOGRAM_SIZE
    · rw [if_pos h1] at h
      obtain rfl := (Option.some.injEq _ _ ▸ h.symm)
      exact ⟨rfl, rfl⟩
    · rw [if_neg h1] at h
      by_cases h2 : r % (p.sync_count + 1) < p.histogram.length
      · rw [if_pos h2] at h
        obtain rfl := (Option.some.injEq _ _ ▸ h.symm)
        exact ⟨rfl, rfl⟩
      · rw [if_neg h2] at h
        obtain rfl := (Option.some.injEq _ _ ▸ h.symm)
        exact ⟨rfl, rfl⟩

theorem sync_next_index_exists (p : PageHeader) (o r : Nat)
    (h : p.sync_count < p.count) :
    ∃ q, p.sync_next_index o r false = some q ∧
      q.sync_count = p.sync_count + 1 ∧ q.count = p.count := by
  unfold PageHeader.sync_next_index
  rw [if_pos rfl, if_neg (by omega)]
  by_cases h1 : p.histogram.length < AKU_HISTOGRAM_SIZE
  · rw [if_pos h1]
    exact ⟨_, rfl, rfl, rfl⟩
  · rw [if_neg h1]
    by_cases h2 : r % (p.sync_count + 1) < p.histogram.length
    · rw [if_pos h2]
      exact ⟨_, rfl, rfl, rfl⟩
    · rw [if_neg h2]
      exact ⟨_, rfl, rfl, rfl⟩

theorem sync_next_index_sort (p : PageHeader) (o r : Nat) :
    p.sync_next_index o r true = some { p with histogram := histSort p.histogram } := by
  unfold PageHeader.sync_next_index
  rw [if_neg (by simp)]

/-- Any page produced by a non-sorting `sync_next_index` satisfies the
invariant outright: the guard forces `sync_count < count`. -/
theorem sync_next_index_some_inv (p : PageHeader) (o r : Nat) (q : PageHeader)
    (h : p.sync_next_index o r false = some q) : q.sync_count ≤ q.count := by
  obtain ⟨h1, h2, h3⟩ := sync_next_index_some_counts p o r q h
  omega

theorem add_chunk_count (p : PageHeader) (l f : Nat) :
    ((p.add_chunk l f).2).count = p.count := by
  unfold PageHeader.add_chunk
  by_cases h : p.get_free_space < l + f
  · rw [if_pos h]
  · rw [if_neg h]

theorem add_chunk_sync (p : PageHeader) (l f : Nat) :
    ((p.add_chunk l f).2).sync_count = p.sync_count := by
  unfold PageHeader.add_chunk
  by_cases h : p.get_free_space < l + f
  · rw [if_pos h]
  · rw [if_neg h]

theorem complete_chunk_inv (p : PageHeader) (d : ChunkHeader) (r1 r2 : Nat)
    (st : aku_Status) (q : PageHeader)
    (h : p.complete_chunk d r1 r2 = some (st, q)) (hinv : p.sync_count <= p.count) :
    q.sync_count <= q.count := by
  unfold PageHeader.complete_chunk at h
  cases hoff : DeltaRLEWriter_encode d.offsets with
  | none => rw [hoff] at h; cases h
  | some off_bytes =>
    rw [hoff] at h
    dsimp only at h
    generalize (DeltaRLETS_encode d.timestamps).length = tsl at h
    generalize (Base128Id_encode d.paramids).length = idl at h
    generalize (RLELen_encode d.lengths).length = lnl at h
    generalize off_bytes.length = ofl at h
    by_cases hc1 : (p.add_chunk ofl (tsl + idl + ofl + lnl)).1 ≠ aku_Status.SUCCESS
    · rw [if_pos hc1] at h
      simp only [Option.some.injEq, Prod.mk.injEq] at h
      obtain ⟨_, rfl⟩ := h
      rw [add_chunk_count, add_chunk_sync]
      exact hinv
    · rw [if_neg hc1] at h
      generalize hp1 : (p.add_chunk ofl (tsl + idl + ofl + lnl)).2 = p1 at h
      have hinv1 : p1.sync_count <= p1.count := by
        rw [← hp1, add_chunk_count, add_chunk_sync]
        exact hinv
      clear hinv hc1 hp1
      by_cases hc2 : (p1.add_chunk lnl (sub32 (tsl + idl + ofl + lnl) ofl)).1
          ≠ aku_Status.SUCCESS
      · rw [if_pos hc2] at h
        simp only [Option.some.injEq, Prod.mk.injEq] at h
        obtain ⟨_, rfl⟩ := h
        rw [add_chunk_count, add_chunk_sync]
        exact hinv1
      · rw [if_neg hc2] at h
        generalize hp2 : (p1.add_chunk lnl (sub32 (tsl + idl + ofl + lnl) ofl)).2 = p2 at h
        have hinv2 : p2.sync_count <= p2.count := by
          rw [← hp2, add_chunk_count, add_chunk_sync]
          exact hinv1
        clear hinv1 hc2 hp2
        by_cases hc3 : (p2.add_chunk idl (sub32 (sub32 (tsl + idl + ofl + lnl) ofl) ofl)).1
            ≠ aku_Status.SUCCESS
        · rw [if_pos hc3] at h
          simp only [Option.some.injEq, Prod.mk.injEq] at h
          obtain ⟨_, rfl⟩ := h
          rw [add_chunk_count, add_chunk_sync]
          exact hinv2
        · rw [if_neg hc3] at h
          generalize hp3 :
            (p2.add_chunk idl (sub32 (sub32 (tsl + idl + ofl + lnl) ofl) ofl)).2 = p3 at h
          have hinv3 : p3.sync_count <= p3.count := by
            rw [← hp3, add_chunk_count, add_chunk_sync]
            exact hinv2
          clear hinv2 hc3 hp3
          by_cases hc4 : (p3.add_chunk tsl
              (sub32 (sub32 (sub32 (tsl + idl + ofl + lnl) ofl) ofl) idl)).1
              ≠ aku_Status.SUCCESS
          · rw [if_pos hc4] at h
            simp only [Option.some.injEq, Prod.mk.injEq] at h
            obtain ⟨_, rfl⟩ := h
            rw [add_chunk_count, add_chunk_sync]
            exact hinv3
          · rw [if_neg hc4] at h
            generalize (p3.add_chunk tsl
              (sub32 (sub32 (sub32 (tsl + idl + ofl + lnl) ofl) ofl) idl)).2 = p4 at h
            cases hhd : d.timestamps.head? with
            | none =>
              rw [hhd] at h
              cases hlast : d.timestamps.getLast? <;> rw [hlast] at h <;> cases h
            | some first_ts =>
              rw [hhd] at h
              cases hlast : d.timestamps.getLast? with
              | none => rw [hlast] at h; cases h
              | some last_ts =>
                rw [hlast] at h
                dsimp only at h
                generalize (p4.add_entry AKU_CHUNK_BWD_ID first_ts sizeof_ChunkDesc).2
                    = pe1 at h
                cases hs1 : pe1.sync_next_index pe1.last_offset r1 false with
                | none => rw [hs1] at h; cases h
                | some q1 =>
                  rw [hs1] at h
                  dsimp only at h
                  generalize (q1.add_entry AKU_CHUNK_FWD_ID last_ts sizeof_ChunkDesc).2
                      = pe2 at h
                  cases hs2 : pe2.sync_next_index pe2.last_offset r2 false with
                  | none => rw [hs2] at h; cases h
                  | some q2 =>
                    rw [hs2] at h
                    dsimp only at h
                    rw [sync_next_index_sort q2 0 0] at h
                    simp only [Option.some.injEq, Prod.mk.injEq] at h
                    obtain ⟨_, rfl⟩ := h
                    have hq2 := sync_next_index_some_inv _ _ _ _ hs2
                    show q2.sync_count <= q2.count
                    exact hq2

/-- One page operation from the claim's repertoire. -/
inductive PageOp where
  | add (param ts len : Nat)
  | chunk (data : ChunkHeader) (r1 r2 : Nat)
  | syncIdx (offset rand : Nat) (sort : Bool)
  | reuse

/-- Apply one operation (`none` propagates a panic). -/
def PageHeader.applyOp (p : PageHeader) : PageOp → Option PageHeader
  | .add param ts len => some (p.add_entry param ts len).2
  | .chunk d r1 r2 =>
    match p.complete_chunk d r1 r2 with
    | none => none
    | some sq => some sq.2
  | .syncIdx o r s => p.sync_next_index o r s
  | .reuse => some p.reuse

/-- Apply a sequence of operations. -/
def PageHeader.applyOps : PageHeader → List PageOp → Option PageHeader
  | p, [] => some p
  | p, op :: ops =>
    match p.applyOp op with
    | none => none
    | some q => q.applyOps ops

theorem applyOp_inv (p : PageHeader) (op : PageOp) (q : PageHeader)
    (h : p.applyOp op = some q) (hinv : p.sync_count ≤ p.count) :
    q.sync_count ≤ q.count := by
  cases op with
  | add param ts len =>
    unfold PageHeader.applyOp at h
    dsimp only at h
    obtain rfl := (Option.some.injEq _ _ ▸ h.symm)
    have h1 := add_entry_sync_count p param ts len
    have h2 := add_entry_count_ge p param ts len
    omega
  | chunk d r1 r2 =>
    unfold PageHeader.applyOp at h
    dsimp only at h
    cases hc : p.complete_chunk d r1 r2 with
    | none => rw [hc] at h; cases h
    | some sq =>
      rw [hc] at h
      obtain rfl := (Option.some.injEq _ _ ▸ h.symm)
      exact complete_chunk_inv p d r1 r2 sq.1 sq.2 (by rw [hc]) hinv
  | syncIdx o r s =>
    unfold PageHeader.applyOp at h
    dsimp only at h
    cases s with
    | false => exact sync_next_index_some_inv p o r q h
    | true =>
      rw [sync_next_index_sort p o r] at h
      obtain rfl := (Option.some.injEq _ _ ▸ h.symm)
      exact hinv
  | reuse =>
    unfold PageHeader.applyOp at h
    dsimp only at h
    obtain rfl := (Option.some.injEq _ _ ▸ h.symm)
    exact Nat.le_refl 0

theorem applyOps_inv :
    ∀ (ops : List PageOp) (p q : PageHeader),
      p.sync_count ≤ p.count → PageHeader.applyOps p ops = some q →
      q.sync_count ≤ q.count := by
  intro ops
  induction ops with
  | nil =>
    intro p q hinv hm
    unfold PageHeader.applyOps at hm
    obtain rfl := (Option.some.injEq _ _ ▸ hm.symm)
    exact hinv
  | cons op ops ih =>
    intro p q hinv hm
    unfold PageHeader.applyOps at hm
    cases ha : p.applyOp op with
    | none => rw [ha] at hm; cases hm
    | some p1 =>
      rw [ha] at hm
      exact ih p1 q (applyOp_inv p op p1 ha hinv) hm

/-- C7: the invariant `count ≥ sync_count` holds after every sequence
of `add_entry`, `complete_chunk`, `sync_next_index` and `reuse`
operations; `add_entry` never changes `sync_count` and increments
`count` exactly on success; `sync_next_index` (non-sorting) increments
`sync_count` only when `sync_count < count` and panics otherwise;
`reuse` resets both counters to zero. -/
theorem C7_page_invariant :
    (∀ (p : PageHeader) (ops : List PageOp) (q : PageHeader),
       p.sync_count ≤ p.count → PageHeader.applyOps p ops = some q →
       q.sync_count ≤ q.count) ∧
    (∀ (p : PageHeader) (param ts len : Nat),
       ((p.add_entry param ts len).2).sync_count = p.sync_count ∧
       ((p.add_entry param ts len).1 = aku_Status.SUCCESS →
          ((p.add_entry param ts len).2).count = p.count + 1) ∧
       ((p.add_entry param ts len).1 ≠ aku_Status.SUCCESS →
          (p.add_entry param ts len).2 = p)) ∧
    (∀ (p : PageHeader) (o r : Nat),
       (p.sync_count < p.count →
          ∃ q, p.sync_next_index o r false = some q ∧
            q.sync_count = p.sync_count + 1 ∧ q.count = p.count) ∧
       (p.count ≤ p.sync_count → p.sync_next_index o r false = none)) ∧
    (∀ p : PageHeader, (PageHeader.reuse p).count = 0 ∧ (PageHeader.reuse p).sync_count = 0) :=
  ⟨fun p ops q hinv hm => applyOps_inv ops p q hinv hm,
   fun p param ts len =>
     ⟨add_entry_sync_count p param ts len,
      fun h => add_entry_success_count p param ts len h,
      fun h => add_entry_fail_eq p param ts len h⟩,
   fun p o r =>
     ⟨fun h => sync_next_index_exists p o r h,
      fun h => sync_next_index_none p o r h⟩,
   fun _ => ⟨rfl, rfl⟩⟩

/-- A fresh writable page. -/
def c7w_page : PageHeader :=
  { version := 0, count := 0, last_offset := PAGE_HEADER_SIZE + 999,
    sync_count := 0, open_count := 1, close_count := 0, page_id := 0,
    length := PAGE_HEADER_SIZE + 1000, checkpoint := 0,
    bbox := PageBoundingBox.init, histogram := [], page_index := [], entries := [] }

/-- Witness for C7: a concrete op sequence (append, sync, reuse, one
more append) keeps `count ≥ sync_count`; `add_entry` on the fresh page
succeeds with `count` 1 and `sync_count` 0; `sync_next_index` panics
on the fresh page and succeeds after the append; `reuse` zeroes
both. -/
theorem C7_page_invariant_witness :
    c7w_page.sync_count ≤ c7w_page.count ∧
    (∃ q, PageHeader.applyOps c7w_page
        [PageOp.add 1 5 8, PageOp.syncIdx 0 0 false, PageOp.reuse, PageOp.add 2 6 8]
        = some q ∧ q.sync_count ≤ q.count) ∧
    (c7w_page.add_entry 1 5 8).1 = aku_Status.SUCCESS ∧
    ((c7w_page.add_entry 1 5 8).2).count = c7w_page.count + 1 ∧
    ((c7w_page.add_entry 1 5 8).2).sync_count = c7w_page.sync_count ∧
    ((c7w_page.add_entry 1 5 0).1 ≠ aku_Status.SUCCESS ∧
      (c7w_page.add_entry 1 5 0).2 = c7w_page) ∧
    c7w_page.sync_next_index 0 0 false = none ∧
    (∃ q, ((c7w_page.add_entry 1 5 8).2).sync_next_index 0 0 false = some q ∧
       q.sync_count = ((c7w_page.add_entry 1 5 8).2).sync_count + 1 ∧
       q.count = ((c7w_page.add_entry 1 5 8).2).count) ∧
    (PageHeader.reuse c7w_page).count = 0 ∧ (PageHeader.reuse c7w_page).sync_count = 0 := by
  refine ⟨by decide, ?_, by decide, ?_, ?_, ?_, ?_, ?_, ?_⟩
  · cases hq : PageHeader.applyOps c7w_page
        [PageOp.add 1 5 8, PageOp.syncIdx 0 0 false, PageOp.reuse, PageOp.add 2 6 8] with
    | none => exact absurd hq (by decide)
    | some q => exact ⟨q, rfl, C7_page_invariant.1 c7w_page _ q (by decide) hq⟩
  · exact (C7_page_invariant.2.1 c7w_page 1 5 8).2.1 (by decide)
  · exact (C7_page_invariant.2.1 c7w_page 1 5 8).1
  · exact ⟨by decide, (C7_page_invariant.2.1 c7w_page 1 5 0).2.2 (by decide)⟩
  · exact (C7_page_invariant.2.2.1 c7w_page 0 0).2 (by decide)
  · exact (C7_page_invariant.2.2.1 ((c7w_page.add_entry 1 5 8).2) 0 0).1 (by decide)
  · exact ⟨(C7_page_invariant.2.2.2 c7w_page).1, (C7_page_invariant.2.2.2 c7w_page).2⟩

/-- A page whose free region is down to 10 bytes. -/
def c10_page : PageHeader :=
  { version := 0, count := 0, last_offset := PAGE_HEADER_SIZE + 10,
    sync_count := 0, open_count := 1, close_count := 0, page_id := 0,
    length := PAGE_HEADER_SIZE + 11, checkpoint := 0,
    bbox := PageBoundingBox.init, histogram := [], page_index := [], entries := [] }

/-- Counterexample for C10: with a zero-length payload and too little
free space, `add_entry` returns `BAD_DATA` — not `OVERFLOW` — even
though the entry header plus payload plus an offset slot exceed the
free space, so "OVERFLOW happens exactly when the space is exceeded"
fails; the zero-length check is tested first. -/
theorem C10_add_entry_cex :
    sizeof_aku_Entry + 0 + sizeof_aku_EntryOffset > c10_page.get_free_space ∧
    (c10_page.add_entry 1 1 0).1 = aku_Status.EBAD_DATA ∧
    (c10_page.add_entry 1 1 0).1 ≠ aku_Status.EOVERFLOW := by decide

/-- C10 (amended): `add_entry` returns `BAD_DATA` exactly when the
payload length is zero, `OVERFLOW` exactly when the payload is
non-empty and the entry header plus payload plus one offset-index slot
exceed the free space, and on any non-`SUCCESS` return the page —
`count`, `last_offset`, offset index, bounding box, `sync_count` and
all other fields — is unchanged. -/
theorem C10_add_entry_amended (p : PageHeader) (param ts len : Nat) :
    ((p.add_entry param ts len).1 = aku_Status.EBAD_DATA ↔ len = 0) ∧
    ((p.add_entry param ts len).1 = aku_Status.EOVERFLOW ↔
       (len ≠ 0 ∧ sizeof_aku_Entry + len + sizeof_aku_EntryOffset > p.get_free_space)) ∧
    ((p.add_entry param ts len).1 ≠ aku_Status.SUCCESS → (p.add_entry param ts len).2 = p) := by
  unfold PageHeader.add_entry
  by_cases h0 : len = 0
  · rw [if_pos h0]
    refine ⟨⟨fun _ => h0, fun _ => rfl⟩, ⟨fun hx => (nomatch hx), fun hx => absurd h0 hx.1⟩,
      fun _ => rfl⟩
  · rw [if_neg h0]
    by_cases h1 : sizeof_aku_Entry + len + sizeof_aku_EntryOffset > p.get_free_space
    · rw [if_pos h1]
      refine ⟨⟨fun hx => (nomatch hx), fun hx => absurd hx h0⟩, ⟨fun _ => ⟨h0, h1⟩,
        fun _ => rfl⟩, fun _ => rfl⟩
    · rw [if_neg h1]
      refine ⟨⟨fun hx => (nomatch hx), fun hx => absurd hx h0⟩, ⟨fun hx => (nomatch hx),
        fun hx => absurd hx.2 h1⟩, fun hx => absurd rfl hx⟩

/-- Witness for C10: on the nearly-full page, a 5-byte payload gets
`OVERFLOW` with the page unchanged, and a 0-byte payload gets
`BAD_DATA` with the page unchanged. -/
theorem C10_add_entry_witness :
    (c10_page.add_entry 1 1 5).1 = aku_Status.EOVERFLOW ∧
    (c10_page.add_entry 1 1 5).2 = c10_page ∧
    (c10_page.add_entry 1 1 0).1 = aku_Status.EBAD_DATA ∧
    (c10_page.add_entry 1 1 0).2 = c10_page :=
  ⟨((C10_add_entry_amended c10_page 1 1 5).2.1).mpr ⟨by decide, by decide⟩,
   (C10_add_entry_amended c10_page 1 1 5).2.2 (by decide),
   ((C10_add_entry_amended c10_page 1 1 0).1).mpr rfl,
   (C10_add_entry_amended c10_page 1 1 0).2.2 (by decide)⟩

/-! ### C9: durability policy of the write path (`storage.cpp`) -/

/-- `AKU_MAX_DURABILITY` / `AKU_DURABILITY_SPEED_TRADEOFF` /
`AKU_MAX_WRITE_SPEED`. -/
inductive Durability where
  | MAX
  | TRADEOFF
  | SPEED
  deriving DecidableEq, Repr

/-- `Storage::_write_impl`: add the value to the active volume's
sequencer; when the returned merge lock is odd, run
`merge_and_compress` against the active page and apply the configured
fsync policy on success (`flush` boolean), or advance the volume ring
on page overflow (`advance` boolean, status masked to `SUCCESS`).  Any
other merge status hits `AKU_PANIC("Fatal error in write path")`
(`none`).  The metadata-store update is not modelled (no claim
observes it); `merge_and_compress` is called without `enforce_write`,
as in the source. -/
def Storage.write_impl {P : Type} (cc : P → UncompressedChunk → aku_Status × P)
    (durability : Durability) (s : Sequencer) (target : P) (v : TimeSeriesValue) :
    Option (aku_Status × Sequencer × P × Bool × Bool) :=
  match s.add v with
  | none => none
  | some (status, merge_lock, s1) =>
    if status = aku_Status.SUCCESS then
      if merge_lock % 2 = 1 then
        match Sequencer.merge_and_compress cc s1 target false with
        | none => none
        | some (st2, s2, t2) =>
          if st2 = aku_Status.SUCCESS then
            match durability with
            | Durability.MAX => some (st2, s2, t2, true, false)
            | Durability.TRADEOFF =>
              if merge_lock % 8 = 1 then some (st2, s2, t2, true, false)
              else some (st2, s2, t2, false, false)
            | Durability.SPEED => some (st2, s2, t2, false, false)
          else if st2 = aku_Status.EOVERFLOW then
            some (aku_Status.SUCCESS, s2, t2, false, true)
          else none
      else some (status, s1, target, false, false)
    else some (status, s1, target, false, false)

/-- C9: fsync policy of the write path.  On the fast path (rejected
write or even merge lock) no durability setting flushes.  After a
successfully compressed chunk, `MAX` always flushes, `TRADEOFF`
flushes exactly when the odd flush token satisfies
`merge_lock % 8 == 1` (tokens 1, 9, 17, … — one in every 8
generations), and `SPEED` never flushes in the write path (only
rotation/close); a page overflow advances the volume ring without
flushing under every setting. -/
theorem C9_write_durability {P : Type} (cc : P → UncompressedChunk → aku_Status × P)
    (s : Sequencer) (t : P) (v : TimeSeriesValue)
    (st0 : aku_Status) (lock : Nat) (s1 : Sequencer)
    (hadd : s.add v = some (st0, lock, s1)) :
    (st0 ≠ aku_Status.SUCCESS →
       ∀ dur, Storage.write_impl cc dur s t v = some (st0, s1, t, false, false)) ∧
    (lock % 2 = 0 →
       ∀ dur, Storage.write_impl cc dur s t v = some (st0, s1, t, false, false)) ∧
    (st0 = aku_Status.SUCCESS → lock % 2 = 1 →
       ∀ (st2 : aku_Status) (s2 : Sequencer) (t2 : P),
         Sequencer.merge_and_compress cc s1 t false = some (st2, s2, t2) →
         (st2 = aku_Status.SUCCESS →
            Storage.write_impl cc Durability.MAX s t v = some (st2, s2, t2, true, false) ∧
            Storage.write_impl cc Durability.TRADEOFF s t v
              = some (st2, s2, t2, decide (lock % 8 = 1), false) ∧
            Storage.write_impl cc Durability.SPEED s t v = some (st2, s2, t2, false, false)) ∧
         (st2 = aku_Status.EOVERFLOW →
            ∀ dur, Storage.write_impl cc dur s t v
              = some (aku_Status.SUCCESS, s2, t2, false, true))) := by
  refine ⟨?_, ?_, ?_⟩
  · intro hne dur
    unfold Storage.write_impl
    rw [hadd]
    dsimp only
    rw [if_neg hne]
  · intro hev dur
    unfold Storage.write_impl
    rw [hadd]
    dsimp only
    by_cases hst : st0 = aku_Status.SUCCESS
    · rw [if_pos hst, if_neg (by omega), hst]
    · rw [if_neg hst]
  · intro hst hodd st2 s2 t2 hmerge
    constructor
    · intro hst2
      refine ⟨?_, ?_, ?_⟩ <;>
        (unfold Storage.write_impl
         rw [hadd]
         dsimp only
         rw [if_pos hst, if_pos hodd, hmerge]
         dsimp only
         rw [if_pos hst2])
      by_cases h8 : lock % 8 = 1
      · rw [if_pos h8, decide_eq_true h8]
      · rw [if_neg h8, decide_eq_false h8]
    · intro hst2 dur
      unfold Storage.write_impl
      rw [hadd]
      dsimp only
      rw [if_pos hst, if_pos hodd, hmerge]
      dsimp only
      rw [if_neg (by rw [hst2]; intro hq; cases hq), if_pos hst2]

/-- A sequencer one write away from its first checkpoint: the add
returns flush token 1. -/
def c9w_state : Sequencer :=
  { window_size := 10, top_timestamp := 15, checkpoint := 1, sequence_number := 0,
    runs := [[⟨5, 1, 0⟩]], ready := [], c_threshold := 1 }

/-- A page that accepts every chunk (counting them). -/
def c9w_cc : Nat → UncompressedChunk → aku_Status × Nat :=
  fun p _ => (aku_Status.SUCCESS, p + 1)

/-- The sequencer after `add ⟨27, 1, 0⟩`: generation 1, the old run
staged in `ready`. -/
def c9w_s1 : Sequencer :=
  { window_size := 10, top_timestamp := 27, checkpoint := 2, sequence_number := 1,
    runs := [[⟨27, 1, 0⟩]], ready := [[⟨5, 1, 0⟩]], c_threshold := 1 }

/-- The sequencer after the successful merge: generation 2, `ready`
drained. -/
def c9w_s2 : Sequencer :=
  { window_size := 10, top_timestamp := 27, checkpoint := 2, sequence_number := 2,
    runs := [[⟨27, 1, 0⟩]], ready := [], c_threshold := 1 }

/-- Witness for C9: on a write whose flush token is 1 and whose merge
succeeds, `MAX` and `TRADEOFF` (token 1 ≡ 1 mod 8) flush while `SPEED`
does not. -/
theorem C9_write_durability_witness :
    Storage.write_impl c9w_cc Durability.MAX c9w_state 0 ⟨27, 1, 0⟩
        = some (aku_Status.SUCCESS, c9w_s2, 1, true, false) ∧
    Storage.write_impl c9w_cc Durability.TRADEOFF c9w_state 0 ⟨27, 1, 0⟩
        = some (aku_Status.SUCCESS, c9w_s2, 1, true, false) ∧
    Storage.write_impl c9w_cc Durability.SPEED c9w_state 0 ⟨27, 1, 0⟩
        = some (aku_Status.SUCCESS, c9w_s2, 1, false, false) :=
  have h := (C9_write_durability c9w_cc c9w_state 0 ⟨27, 1, 0⟩ aku_Status.SUCCESS 1 c9w_s1
    (by decide)).2.2 rfl (by decide) aku_Status.SUCCESS c9w_s2 1 (by decide)
  have h3 := h.1 rfl
  ⟨h3.1, h3.2.1, h3.2.2⟩

end Akumuli
